import Mathlib

/-!
# hanakun n-puzzle: grid state, generator, input edge detector and scene machine

A shallow embedding of `src/main.cpp`.

* C++ `int` is `Int`; overflow is not modelled (sides, cell values and counts are small).
* `std::vector<int>` is `List Int`; `vector::at` throws on an index outside the vector.
* A member function that mutates `this` and may throw returns the object state at the
  point of return together with the exception thrown, if any.
* `hoolib.hpp` and SFML are not part of the sources.  The helpers of `HooLib` that the
  code calls are modelled from the specification (each such definition says so), the random
  shuffle is a parameter, and `sf::Clock` is a start instant read against the current time.
* `float` and `double` arithmetic rounds the exact result to nearest, ties to even.
* Drawing (windows, off-screen textures, sprites) never feeds back into the state of a scene
  and is left out of the embedding.
-/

namespace HanakunNPuzzle

/-! ## HooLib helpers -/

namespace HooLib

/-- Modelled from the spec: `HooLib::betweenEq(lo, v, hi)` from the missing `hoolib.hpp`, the
closed-interval test behind "outside [0, W−1]×[0, H−1]". -/
def betweenEq (lo v hi : Int) : Bool := decide (lo ≤ v) && decide (v ≤ hi)

/-- Modelled from the spec: `HooLib::odd` from the missing `hoolib.hpp`, the test "the total
transposition count is odd". -/
def odd (n : Int) : Bool := n % 2 ≠ 0

/-- Modelled from the spec: `HooLib::swap(a, b)` from the missing `hoolib.hpp` on two cells of a
vector, exchanging the values held at positions `i` and `j`. -/
def swap (l : List Int) (i j : Nat) : List Int :=
  (l.set i (l.getD j 0)).set j (l.getD i 0)

/-- Modelled from the spec: `HooLib::iter_swap(a, b)` from the missing `hoolib.hpp`: "swapping it
there if it is not already, incrementing the parity counter by one if a swap occurred".  The
iterators are positions; the result is the new vector and the number of swaps done (0 or 1). -/
def iter_swap (l : List Int) (i j : Nat) : List Int × Int :=
  if i = j then (l, 0) else (swap l i j, 1)

/-- The random shuffle `HooLib::shuffle(begin, end)` is a parameter of the development: from the
vector it is given it returns the rearranged vector and the `int` it reports. -/
abbrev Shuffle := List Int → List Int × Int

/-- Exchange cells pairwise, in the order of the list. -/
def applySwaps : List (Nat × Nat) → List Int → List Int
  | [], l => l
  | t :: ts, l => applySwaps ts (swap l t.1 t.2)

/-- Modelled from the spec: `HooLib::shuffle` from the missing `hoolib.hpp`, "a Fisher–Yates style
shuffle, counting the number of pairwise transpositions performed".  The random draws are the
list of position pairs that get exchanged; the count of exchanges is returned. -/
def shuffle (ts : List (Nat × Nat)) : Shuffle :=
  fun l => (applySwaps ts l, (ts.length : Int))

end HooLib

/-! ## NPuzzle -/

/-- Exceptions the puzzle code can raise. -/
inductive Failure
  | notEnoughSize
  | invalidDirection
  | outOfRange
  deriving DecidableEq

/-- The enum `NPuzzle::DIRECTION`. -/
inductive DIRECTION
  | NORTH
  | SOUTH
  | WEST
  | EAST
  deriving DecidableEq

/-- The `switch` at the head of `NPuzzle::move`: the offset `(dx, dy)` of a direction. -/
def DIRECTION.offset : DIRECTION → Int × Int
  | .NORTH => (0, 1)
  | .SOUTH => (0, -1)
  | .WEST => (1, 0)
  | .EAST => (-1, 0)

/-- The data members of `class NPuzzle`. -/
structure NPuzzle where
  width_ : Int
  height_ : Int
  blocks_ : List Int
  deriving DecidableEq

namespace NPuzzle

/-- The member `get0Index`: the distance from `begin()` to the first 0 (`size()` when there is none). -/
def get0Index (p : NPuzzle) : Int := (p.blocks_.indexOf 0 : Nat)

/-- The member `index2xy`, with the truncating `%` and `/` of C++. -/
def index2xy (p : NPuzzle) (index : Int) : Int × Int :=
  (index.tmod p.width_, index.tdiv p.width_)

/-- The member `xy2index`. -/
def xy2index (p : NPuzzle) (x y : Int) : Int := y * p.width_ + x

/-- The bounds check of `blocks_.at(i)`: a negative `int` converts to a huge `size_t`. -/
def inRange (p : NPuzzle) (i : Int) : Bool := decide (0 ≤ i) && decide (i < p.blocks_.length)

/-- The accessor `at(x, y) const`: the value at a coordinate, or `std::out_of_range`. -/
def at_ (p : NPuzzle) (x y : Int) : Except Failure Int :=
  if p.inRange (p.xy2index x y) then .ok (p.blocks_.getD (p.xy2index x y).toNat 0)
  else .error .outOfRange

/-- The member `isCorrect`: cells `0 .. W*H-2` hold `i + 1` and the last cell holds 0.  (`operator[]` is
unchecked; a cell outside the vector is read as a value that matches nothing.) -/
def isCorrect (p : NPuzzle) : Bool :=
  (List.range (p.width_ * p.height_ - 1).toNat).all
      (fun i => p.blocks_[i]? == some ((i : Int) + 1))
    && p.blocks_[(p.width_ * p.height_ - 1).toNat]? == some 0

/-- The member `move`: the state of the puzzle when the call returns, and the exception thrown, if any.
Both `at` references are taken before the swap, so nothing is written when one of them
throws. -/
def move (p : NPuzzle) (dir : DIRECTION) : NPuzzle × Option Failure :=
  let dx := dir.offset.1
  let dy := dir.offset.2
  let xy := p.index2xy p.get0Index
  let x := xy.1
  let y := xy.2
  if HooLib.betweenEq 0 (x + dx) (p.width_ - 1) && HooLib.betweenEq 0 (y + dy) (p.height_ - 1) then
    if p.inRange (p.xy2index x y) && p.inRange (p.xy2index (x + dx) (y + dy)) then
      ({ p with blocks_ := HooLib.swap p.blocks_ (p.xy2index x y).toNat
                              (p.xy2index (x + dx) (y + dy)).toNat }, none)
    else (p, some .outOfRange)
  else (p, some .invalidDirection)

/-- The class invariant the claims call "a valid grid": positive sides and a block sequence that
is a rearrangement of `0, 1, …, W*H-1`. -/
def Valid (p : NPuzzle) : Prop :=
  1 ≤ p.width_ ∧ 1 ≤ p.height_ ∧
    p.blocks_.Perm ((List.range (p.width_ * p.height_).toNat).map (fun i : Nat => (i : Int)))

/-- The solved configuration `[1, 2, …, n-1, 0]`. -/
def solvedBlocks (n : Nat) : List Int :=
  (List.range (n - 1)).map (fun i : Nat => (i : Int) + 1) ++ [0]

/-- The block sequence `l` of `n` cells is the solved configuration rearranged by the permutation
`σ` of the cell positions: cell `k` of `l` holds what cell `σ k` holds when solved. -/
def ArrangedBy (n : Nat) (l : List Int) (σ : Equiv.Perm (Fin n)) : Prop :=
  l.length = n ∧ ∀ k : Fin n, l[(k : Nat)]? = (solvedBlocks n)[(σ k : Nat)]?

/-- The block sequence `l` is the solved configuration rearranged by a permutation whose sign is
that of `c` transpositions. -/
def ArrangedWithParity (n : Nat) (l : List Int) (c : Int) : Prop :=
  ∃ σ : Equiv.Perm (Fin n), ArrangedBy n l σ ∧
    Equiv.Perm.sign σ = if c % 2 = 0 then 1 else -1

/-- The four grids of the 4×1 board that carry the tiles in the order 2, 3, 1. -/
def lineStates : List NPuzzle :=
  [NPuzzle.mk 4 1 [2, 3, 1, 0], NPuzzle.mk 4 1 [2, 3, 0, 1], NPuzzle.mk 4 1 [2, 0, 3, 1],
    NPuzzle.mk 4 1 [0, 2, 3, 1]]


/-- The first loop of the constructor, writing `i + 1` into cell `i` of `blocks_(width * height, 0)`
for `i < width * height - 1`. -/
def initialBlocks (width height : Int) : List Int :=
  (List.range (width * height - 1).toNat).foldl (fun b i => b.set i ((i : Int) + 1))
    (List.replicate (width * height).toNat 0)

/-- One pass through the body of `while(true)` in the constructor: the block sequence it leaves
and the flag `hasProperlyShuffled`.  (The shuffle keeps the size of the vector, so the `at` of
the test cannot throw; a cell outside the vector is read as different from `i`.) -/
def shufflePass (width height : Int) (sh : HooLib.Shuffle) (blocks : List Int) : List Int × Bool :=
  let r := sh blocks
  let s := HooLib.iter_swap r.1 (r.1.indexOf 0) (r.1.length - 1)
  let nos := r.2 + s.2
  let b := if HooLib.odd nos then HooLib.swap s.1 0 1 else s.1
  (b, (List.range (width * height - 1).toNat).any (fun i => b[i]? != some (i : Int)))

/-- The `while(true)` loop of the constructor, run for at most `fuel` passes; pass number `k`
draws its shuffle from `rng k`.  `none` means the loop is still running. -/
def shuffleLoop (width height : Int) (rng : Nat → HooLib.Shuffle) :
    Nat → Nat → List Int → Option (List Int)
  | 0, _, _ => none
  | fuel + 1, k, blocks =>
    if (shufflePass width height (rng k) blocks).2 then
      some (shufflePass width height (rng k) blocks).1
    else shuffleLoop width height rng fuel (k + 1) (shufflePass width height (rng k) blocks).1

/-- The constructor `NPuzzle(width, height)`.  `none`: the retry loop has not ended within `fuel`
passes; `some (.error _)`: the size check threw; `some (.ok p)`: the puzzle constructed. -/
def new (width height : Int) (rng : Nat → HooLib.Shuffle) (fuel : Nat) :
    Option (Except Failure NPuzzle) :=
  if decide (width ≥ 1) && decide (height ≥ 1) && decide (width * height ≥ 2) then
    (shuffleLoop width height rng fuel 0 (initialBlocks width height)).map
      (fun b => .ok { width_ := width, height_ := height, blocks_ := b })
  else some (.error .notEnoughSize)

/-- Apply `move` for each direction in turn; `none` as soon as one of the calls throws. -/
def moves (p : NPuzzle) : List DIRECTION → Option NPuzzle
  | [] => some p
  | d :: ds => if (p.move d).2 = none then moves (p.move d).1 ds else none

end NPuzzle

/-! ## PicPuzzle -/

/-- The members of `class PicPuzzle` that carry state (sprites are drawing data). -/
structure PicPuzzle where
  nWidth_ : Int
  nHeight_ : Int
  puzzle_ : NPuzzle
  deriving DecidableEq

namespace PicPuzzle

/-- The member `hasFinished`. -/
def hasFinished (z : PicPuzzle) : Bool := z.puzzle_.isCorrect

/-- The member `move`: `try { puzzle_.move(dir); } catch(...) {}` and then `isCorrect()`. -/
def move (z : PicPuzzle) (dir : DIRECTION) : PicPuzzle × Bool :=
  ({ z with puzzle_ := (z.puzzle_.move dir).1 }, (z.puzzle_.move dir).1.isCorrect)

end PicPuzzle

/-! ## Keyboard -/

/-- The four keys of `sf::Keyboard::Key` that `key2dir` binds. -/
inductive Key
  | Left
  | Right
  | Up
  | Down
  deriving DecidableEq

/-- The data members of `class Keyboard`. -/
structure Keyboard where
  hasPressed_ : Bool
  prevDir_ : Option DIRECTION
  deriving DecidableEq

namespace Keyboard

/-- The entries of the table `Keyboard::key2dir`. -/
def key2dir : List (Key × DIRECTION) :=
  [(.Left, .WEST), (.Right, .EAST), (.Up, .NORTH), (.Down, .SOUTH)]

/-- The constructor `Keyboard()`: `hasPressed_(false)` and an empty `prevDir_`. -/
def init : Keyboard := { hasPressed_ := false, prevDir_ := none }

/-- The member `update`.  Here `order` is the sequence in which the `unordered_map` hands out its entries to
`std::find_if`, and `isKeyPressed` is the answer of `sf::Keyboard::isKeyPressed` this frame. -/
def update (kb : Keyboard) (order : List (Key × DIRECTION)) (isKeyPressed : Key → Bool) :
    Keyboard :=
  match order.find? (fun elm => isKeyPressed elm.1) with
  | none => { hasPressed_ := false, prevDir_ := none }
  | some it => { hasPressed_ := if kb.prevDir_.isNone then true else false, prevDir_ := some it.2 }

/-- The member `getPressedDir`. -/
def getPressedDir (kb : Keyboard) : Option DIRECTION :=
  if kb.hasPressed_ then kb.prevDir_ else none

/-- The keyboard after `n` consecutive `update()` calls with the same keys held. -/
def hold (order : List (Key × DIRECTION)) (isKeyPressed : Key → Bool) : Nat → Keyboard → Keyboard
  | 0, kb => kb
  | n + 1, kb => (hold order isKeyPressed n kb).update order isKeyPressed

end Keyboard

/-! ## Floating point

A finite `float` or `double` is the rational number it denotes.  Every arithmetic operation
returns the exact result rounded to nearest, ties to even, to 24 significant bits for `float`
and 53 for `double` (IEEE 754 binary32 and binary64).  The exponent range is not bounded: the
values of the wipe (seconds from a 64-bit microsecond count, levels around 1) stay far from
overflow and from the subnormal numbers. -/

namespace Fp

/-- The integer nearest to `x`, the even one of the two when `x` lies half-way. -/
def roundHalfEven (x : ℚ) : Int :=
  if x - ⌊x⌋ < 1 / 2 then ⌊x⌋
  else if 1 / 2 < x - ⌊x⌋ then ⌊x⌋ + 1
  else if ⌊x⌋ % 2 = 0 then ⌊x⌋ else ⌊x⌋ + 1

/-- Round `q` to `p` significant bits, to nearest and ties to even: with `2^e ≤ |q| < 2^(e+1)`
the result is the multiple of `2^(e-p+1)` nearest to `q`. -/
def roundNearest (p : Nat) (q : ℚ) : ℚ :=
  if q = 0 then 0
  else (roundHalfEven (q / 2 ^ (Int.log 2 |q| - p + 1)) : ℚ) * 2 ^ (Int.log 2 |q| - p + 1)

/-- Rounding to `float`. -/
def toFloat (q : ℚ) : ℚ := roundNearest 24 q

/-- Rounding to `double`. -/
def toDouble (q : ℚ) : ℚ := roundNearest 53 q

end Fp

/-! ## Clock and scenes -/

/-- Modelled from the spec: `sf::Clock` (SFML is not part of the sources), the consumed clock
"`elapsedSinceLastSample() -> duration`, monotonic".  Instants and durations are integer
microseconds, the unit of `sf::Time`; a clock is the instant it was last restarted at. -/
structure Clock where
  start : Int
  deriving DecidableEq

namespace Clock

/-- Modelled from the spec: `sf::Clock::getElapsedTime`, the time since the last restart. -/
def getElapsedTime (c : Clock) (now : Int) : Int := now - c.start

/-- Modelled from the spec: `sf::Clock::restart`, the elapsed time and the clock restarted. -/
def restart (c : Clock) (now : Int) : Int × Clock := (now - c.start, { start := now })

/-- Modelled from the spec: `sf::Time::asSeconds` (SFML is not part of the sources), which returns
a `float`: the microsecond count, converted to `float`, divided by `1000000.f`. -/
def asSeconds (t : Int) : ℚ := Fp.toFloat (Fp.toFloat (t : ℚ) / 1000000)

/-- Modelled from the spec: `sf::Time::asMilliseconds`, whole milliseconds. -/
def asMilliseconds (t : Int) : Int := t.tdiv 1000

end Clock

/-- The scene classes `Game`, `Wiping` and `Finish` with the members that carry state.  A
`shared_ptr` to a scene is the scene held by value; the `double` members `speed_` and `level_`
hold the rational a finite `double` denotes. -/
inductive Scene
  | Game (puzzle_ : PicPuzzle)
  | Wiping (prev next : Scene) (hasInitialized_ : Bool) (speed_ level_ : ℚ) (clock_ : Clock)
  | Finish (spriteIndex_ : Int) (clock_ : Clock)
  deriving DecidableEq

/-- Which pointer a `process` call returns: `shared_from_this()`, the member `scenes_[1]`, or a
scene made by `std::make_shared` during the call. -/
inductive Handle
  | self
  | next
  | fresh (s : Scene)
  deriving DecidableEq

namespace Scene

/-- The constant `Finish::INTERVAL`. -/
def INTERVAL : Int := 500

/-- The virtual `process(window, keyboard)` called at instant `now`: the state of the scene object
after the call and the pointer returned.  A scene constructed during the call starts its clock
at `now`.  In `Wiping`, `level_ += clock_.restart().asSeconds() * speed_` widens the `float`
seconds to `double` (exact), multiplies in `double` and adds in `double`. -/
def process : Scene → Int → Keyboard → Scene × Handle
  | .Game puzzle_, now, keyboard =>
    if !puzzle_.hasFinished then
      match keyboard.getPressedDir with
      | some dir =>
        if (puzzle_.move dir).2 then
          (.Game (puzzle_.move dir).1,
            .fresh (.Wiping (.Game (puzzle_.move dir).1) (.Finish 0 { start := now }) false
              (1 / 4) 0 { start := now }))
        else (.Game (puzzle_.move dir).1, .self)
      | none => (.Game puzzle_, .self)
    else (.Game puzzle_, .self)
  | .Wiping prev next hasInitialized_ speed_ level_ clock_, now, keyboard =>
    let level := Fp.toDouble (level_ + Fp.toDouble (Clock.asSeconds (clock_.restart now).1 * speed_))
    (.Wiping (process prev now keyboard).1 (process next now keyboard).1 hasInitialized_ speed_
        level (clock_.restart now).2,
      if level < 1 then .self else .next)
  | .Finish spriteIndex_ clock_, now, _ =>
    if Clock.asMilliseconds (clock_.getElapsedTime now) > INTERVAL then
      (.Finish ((spriteIndex_ + 1).tmod 6) (clock_.restart now).2, .self)
    else (.Finish spriteIndex_ clock_, .self)

/-- The assignment `scene = scene->process(window, keyboard)` of the frame callback in `main`:
the scene the driver holds after the call. -/
def step (s : Scene) (now : Int) (keyboard : Keyboard) : Scene :=
  match process s now keyboard with
  | (_, .fresh t) => t
  | (.Wiping _ next _ _ _ _, .next) => next
  | (s1, _) => s1

/-- The frame callback of `main` run once per frame of the list, starting at instant `now`; a
frame gives the time elapsed since the previous call (in microseconds) and the keyboard state
after `keyboard.update()`. -/
def run (s : Scene) (now : Int) : List (Nat × Keyboard) → Scene
  | [] => s
  | f :: fs => run (step s (now + f.1) f.2) (now + f.1) fs

/-- The member `Finish::process` called once after each gap of the list (in milliseconds), starting at
instant `now`. -/
def finishAfter (s : Scene) (now : Int) (keyboard : Keyboard) : List Int → Scene
  | [] => s
  | g :: gs => finishAfter (process s (now + 1000 * g) keyboard).1 (now + 1000 * g) keyboard gs

/-- The frame index held by a `Finish` scene. -/
def spriteIndex? : Scene → Option Int
  | .Finish i _ => some i
  | _ => none

end Scene

/-! ## Cell exchange -/

namespace HooLib

theorem swap_length (l : List Int) (i j : Nat) : (swap l i j).length = l.length := by
  simp [swap]

theorem swap_getElem? (l : List Int) (i j k : Nat) (hi : i < l.length) (hj : j < l.length) :
    (swap l i j)[k]? = l[Equiv.swap i j k]? := by
  unfold swap
  rw [List.getElem?_set, List.getElem?_set, List.length_set]
  rw [List.getD_eq_getElem l 0 hi, List.getD_eq_getElem l 0 hj]
  by_cases h1 : j = k
  · subst h1
    simp [hj, hi]
  · by_cases h2 : i = k
    · subst h2
      simp [h1, hi, hj]
    · have h3 : Equiv.swap i j k = k := Equiv.swap_apply_of_ne_of_ne (Ne.symm h2) (Ne.symm h1)
      simp [h1, h2, h3]

theorem swap_eq_ofFn (l : List Int) (i j : Nat) (hi : i < l.length) (hj : j < l.length) :
    swap l i j
      = List.ofFn ((fun k : Fin l.length => l[(k : Nat)]) ∘ (Equiv.swap (⟨i, hi⟩ : Fin l.length) ⟨j, hj⟩)) := by
  apply List.ext_getElem (by simp [swap_length])
  intro k h1 h2
  have hk : k < l.length := by simpa [swap_length] using h1
  have hs : ((Equiv.swap (⟨i, hi⟩ : Fin l.length) ⟨j, hj⟩ ⟨k, hk⟩ : Fin l.length) : Nat)
      = Equiv.swap i j k := by
    simp only [Equiv.swap_apply_def, Fin.mk.injEq]
    split_ifs <;> rfl
  have h := swap_getElem? l i j k hi hj
  rw [List.getElem?_eq_getElem h1, List.getElem?_eq_getElem (by rw [← hs]; exact Fin.is_lt _)] at h
  simp only [List.getElem_ofFn, Function.comp]
  rw [Option.some.inj h]
  congr 1
  exact hs.symm

theorem swap_perm (l : List Int) (i j : Nat) (hi : i < l.length) (hj : j < l.length) :
    (swap l i j).Perm l := by
  rw [swap_eq_ofFn l i j hi hj]
  exact (Equiv.Perm.ofFn_comp_perm _ _).trans (by rw [List.ofFn_getElem])

end HooLib

/-! ## Valid grids and `move` -/

namespace NPuzzle

theorem Valid.length_eq {p : NPuzzle} (hv : p.Valid) :
    p.blocks_.length = (p.width_ * p.height_).toNat := by
  have h := hv.2.2.length_eq
  rw [List.length_map, List.length_range] at h
  exact h

theorem Valid.length_int {p : NPuzzle} (hv : p.Valid) :
    (p.blocks_.length : Int) = p.width_ * p.height_ := by
  rw [hv.length_eq]
  have h1 := hv.1
  have h2 := hv.2.1
  have : 0 ≤ p.width_ * p.height_ := by positivity
  omega

theorem Valid.nodup {p : NPuzzle} (hv : p.Valid) : p.blocks_.Nodup := by
  rw [hv.2.2.nodup_iff]
  have hinj : Function.Injective (fun i : Nat => (i : Int)) := fun a b h => Int.ofNat.inj h
  exact (List.nodup_range _).map hinj

/-- In a valid grid the first 0 found by `get0Index` is the blank cell. -/
theorem Valid.get0Index_eq {p : NPuzzle} (hv : p.Valid) (i : Nat)
    (h : p.blocks_[i]? = some 0) : p.get0Index = (i : Int) := by
  obtain ⟨hi, he⟩ := List.getElem?_eq_some_iff.mp h
  unfold get0Index
  have := List.indexOf_getElem hv.nodup i hi
  rw [he] at this
  rw [this]

theorem index2xy_xy2index (p : NPuzzle) (x y : Int) (hx : 0 ≤ x ∧ x < p.width_) (hy : 0 ≤ y) :
    p.index2xy (y * p.width_ + x) = (x, y) := by
  have hw : 0 < p.width_ := by omega
  have hnn : 0 ≤ y * p.width_ + x := by nlinarith
  unfold index2xy
  rw [Int.tmod_eq_emod hnn hw.le, Int.tdiv_eq_ediv hnn hw.le]
  congr 1
  · rw [add_comm, Int.add_mul_emod_self]
    exact Int.emod_eq_of_lt hx.1 hx.2
  · rw [add_comm, Int.add_mul_ediv_right _ _ hw.ne']
    rw [Int.ediv_eq_zero_of_lt hx.1 hx.2]
    simp

theorem Valid.inRange_xy {p : NPuzzle} (hv : p.Valid) (x y : Int)
    (hx : 0 ≤ x ∧ x ≤ p.width_ - 1) (hy : 0 ≤ y ∧ y ≤ p.height_ - 1) :
    p.inRange (p.xy2index x y) = true := by
  unfold inRange xy2index
  rw [hv.length_int]
  have h1 : 0 ≤ y * p.width_ + x := by nlinarith
  have h2 : y * p.width_ + x < p.width_ * p.height_ := by nlinarith
  simp [h1, h2]

/-- What `move` computes on a valid grid whose blank sits at `(x, y)`. -/
theorem Valid.move_eq {p : NPuzzle} (hv : p.Valid) (dir : DIRECTION) (x y : Int)
    (hx : 0 ≤ x ∧ x < p.width_) (hy : 0 ≤ y ∧ y < p.height_)
    (hblank : p.blocks_[(y * p.width_ + x).toNat]? = some 0) :
    p.move dir =
      if 0 ≤ x + dir.offset.1 ∧ x + dir.offset.1 ≤ p.width_ - 1 ∧
          0 ≤ y + dir.offset.2 ∧ y + dir.offset.2 ≤ p.height_ - 1 then
        ({ p with blocks_ := HooLib.swap p.blocks_ (y * p.width_ + x).toNat
                                ((y + dir.offset.2) * p.width_ + (x + dir.offset.1)).toNat },
          none)
      else (p, some .invalidDirection) := by
  have hnn : 0 ≤ y * p.width_ + x := by nlinarith
  have h0 : p.get0Index = y * p.width_ + x := by
    rw [hv.get0Index_eq _ hblank]
    exact Int.toNat_of_nonneg hnn
  unfold move
  rw [h0, index2xy_xy2index p x y hx hy.1]
  simp only [HooLib.betweenEq]
  by_cases hb : 0 ≤ x + dir.offset.1 ∧ x + dir.offset.1 ≤ p.width_ - 1 ∧
          0 ≤ y + dir.offset.2 ∧ y + dir.offset.2 ≤ p.height_ - 1
  · rw [if_pos hb]
    have e1 := hv.inRange_xy x y ⟨hx.1, by omega⟩ ⟨hy.1, by omega⟩
    have e2 := hv.inRange_xy (x + dir.offset.1) (y + dir.offset.2) ⟨hb.1, hb.2.1⟩ ⟨hb.2.2.1, hb.2.2.2⟩
    simp only [e1, e2, hb.1, hb.2.1, hb.2.2.1, hb.2.2.2, decide_True, Bool.and_self, if_true]
    rfl
  · rw [if_neg hb]
    have : (decide (0 ≤ x + dir.offset.1) && decide (x + dir.offset.1 ≤ p.width_ - 1) &&
        (decide (0 ≤ y + dir.offset.2) && decide (y + dir.offset.2 ≤ p.height_ - 1))) = false := by
      by_contra hc
      simp only [Bool.not_eq_false, Bool.and_eq_true, decide_eq_true_eq] at hc
      exact hb ⟨hc.1.1, hc.1.2, hc.2.1, hc.2.2⟩
    simp [this]

end NPuzzle

namespace NPuzzle

theorem Valid.getElem?_inj {p : NPuzzle} (hv : p.Valid) {i j : Nat} (hi : i < p.blocks_.length)
    (h : p.blocks_[i]? = p.blocks_[j]?) : i = j := by
  have hj : j < p.blocks_.length := by
    by_contra hc
    rw [List.getElem?_eq_getElem hi, List.getElem?_eq_none (by omega)] at h
    exact Option.noConfusion h
  rw [List.getElem?_eq_getElem hi, List.getElem?_eq_getElem hj] at h
  exact (List.Nodup.getElem_inj_iff hv.nodup).mp (Option.some.inj h)

theorem offset_index_ne (w x y : Int) (hw : 1 ≤ w) (dir : DIRECTION)
    (h1 : 0 ≤ y * w + x) (h2 : 0 ≤ (y + dir.offset.2) * w + (x + dir.offset.1)) :
    (y * w + x).toNat ≠ ((y + dir.offset.2) * w + (x + dir.offset.1)).toNat := by
  intro h
  have h3 : y * w + x = (y + dir.offset.2) * w + (x + dir.offset.1) := by
    have := congrArg (fun n : Nat => (n : Int)) h
    simp only [Int.toNat_of_nonneg h1, Int.toNat_of_nonneg h2] at this
    exact this
  cases dir <;> simp only [DIRECTION.offset] at h3 <;> nlinarith

end NPuzzle

/-- C3: on a valid grid whose blank sits at `(x, y)`, `NPuzzle::move` throws exactly when
`(x + dx, y + dy)` lies outside `[0, W-1] × [0, H-1]`; when it throws, the exception is the
invalid-direction one and the puzzle is exactly as it was before the call. -/
theorem move_throws_iff_target_outside (p : NPuzzle) (dir : DIRECTION) (x y : Int)
    (hv : p.Valid) (hx : 0 ≤ x ∧ x < p.width_) (hy : 0 ≤ y ∧ y < p.height_)
    (hblank : p.blocks_[(y * p.width_ + x).toNat]? = some 0) :
    ((p.move dir).2 ≠ none ↔
        ¬ (0 ≤ x + dir.offset.1 ∧ x + dir.offset.1 ≤ p.width_ - 1 ∧
            0 ≤ y + dir.offset.2 ∧ y + dir.offset.2 ≤ p.height_ - 1)) ∧
      ((p.move dir).2 ≠ none →
        (p.move dir).2 = some Failure.invalidDirection ∧ (p.move dir).1 = p) := by
  rw [hv.move_eq dir x y hx hy hblank]
  by_cases hb : 0 ≤ x + dir.offset.1 ∧ x + dir.offset.1 ≤ p.width_ - 1 ∧
          0 ≤ y + dir.offset.2 ∧ y + dir.offset.2 ≤ p.height_ - 1
  · simp [hb]
  · simp [hb]

/-- Witness for C3: the solved 3×3 grid, whose blank sits at `(2, 2)`, pushed north. -/
theorem move_throws_iff_target_outside_witness :
    (((NPuzzle.mk 3 3 [1, 2, 3, 4, 5, 6, 7, 8, 0]).move DIRECTION.NORTH).2 ≠ none ↔
        ¬ (0 ≤ (2 : Int) + DIRECTION.NORTH.offset.1 ∧ (2 : Int) + DIRECTION.NORTH.offset.1 ≤ 3 - 1 ∧
            0 ≤ (2 : Int) + DIRECTION.NORTH.offset.2 ∧
              (2 : Int) + DIRECTION.NORTH.offset.2 ≤ 3 - 1)) ∧
      (((NPuzzle.mk 3 3 [1, 2, 3, 4, 5, 6, 7, 8, 0]).move DIRECTION.NORTH).2 ≠ none →
        ((NPuzzle.mk 3 3 [1, 2, 3, 4, 5, 6, 7, 8, 0]).move DIRECTION.NORTH).2
            = some Failure.invalidDirection ∧
          ((NPuzzle.mk 3 3 [1, 2, 3, 4, 5, 6, 7, 8, 0]).move DIRECTION.NORTH).1
            = NPuzzle.mk 3 3 [1, 2, 3, 4, 5, 6, 7, 8, 0]) :=
  move_throws_iff_target_outside (NPuzzle.mk 3 3 [1, 2, 3, 4, 5, 6, 7, 8, 0]) DIRECTION.NORTH 2 2
    ⟨by decide, by decide, by decide⟩ ⟨by decide, by decide⟩ ⟨by decide, by decide⟩ (by decide)

namespace NPuzzle

/-- The effect of a `move` that does not throw, on a valid grid whose blank sits at `(x, y)`. -/
theorem Valid.move_frame {p : NPuzzle} (hv : p.Valid) (dir : DIRECTION) (x y : Int)
    (hx : 0 ≤ x ∧ x < p.width_) (hy : 0 ≤ y ∧ y < p.height_)
    (hblank : p.blocks_[(y * p.width_ + x).toNat]? = some 0)
    (hok : (p.move dir).2 = none) :
    (y * p.width_ + x).toNat ≠ ((y + dir.offset.2) * p.width_ + (x + dir.offset.1)).toNat ∧
      (y * p.width_ + x).toNat < p.blocks_.length ∧
      ((y + dir.offset.2) * p.width_ + (x + dir.offset.1)).toNat < p.blocks_.length ∧
      (p.move dir).1.blocks_.length = p.blocks_.length ∧
      (∀ k : Nat, (p.move dir).1.blocks_[k]? ≠ p.blocks_[k]? ↔
        (k = (y * p.width_ + x).toNat ∨
          k = ((y + dir.offset.2) * p.width_ + (x + dir.offset.1)).toNat)) ∧
      (p.move dir).1.blocks_[(y * p.width_ + x).toNat]?
        = p.blocks_[((y + dir.offset.2) * p.width_ + (x + dir.offset.1)).toNat]? ∧
      (p.move dir).1.blocks_[((y + dir.offset.2) * p.width_ + (x + dir.offset.1)).toNat]?
        = p.blocks_[(y * p.width_ + x).toNat]? ∧
      (p.move dir).1.blocks_.Perm p.blocks_ ∧
      (p.move dir).1.Valid := by
  have hm := hv.move_eq dir x y hx hy hblank
  by_cases hb : 0 ≤ x + dir.offset.1 ∧ x + dir.offset.1 ≤ p.width_ - 1 ∧
          0 ≤ y + dir.offset.2 ∧ y + dir.offset.2 ≤ p.height_ - 1
  swap
  · rw [hm, if_neg hb] at hok
    exact Option.noConfusion hok
  rw [if_pos hb] at hm
  have hw := hv.1
  have h1 : 0 ≤ y * p.width_ + x := by nlinarith
  have h2 : 0 ≤ (y + dir.offset.2) * p.width_ + (x + dir.offset.1) := by nlinarith
  have hlen := hv.length_int
  have hi : (y * p.width_ + x).toNat < p.blocks_.length := by
    have : y * p.width_ + x < p.width_ * p.height_ := by nlinarith
    omega
  have hj : ((y + dir.offset.2) * p.width_ + (x + dir.offset.1)).toNat < p.blocks_.length := by
    have : (y + dir.offset.2) * p.width_ + (x + dir.offset.1) < p.width_ * p.height_ := by
      nlinarith
    omega
  have hne := offset_index_ne p.width_ x y hw dir h1 h2
  have hperm := HooLib.swap_perm p.blocks_ _ _ hi hj
  have hget := fun k => HooLib.swap_getElem? p.blocks_ _ _ k hi hj
  rw [hm]
  refine ⟨hne, hi, hj, HooLib.swap_length _ _ _, ?_, ?_, ?_, hperm, hv.1, hv.2.1, hperm.trans hv.2.2⟩
  · intro k
    show (HooLib.swap p.blocks_ _ _)[k]? ≠ p.blocks_[k]? ↔ _
    rw [hget k]
    constructor
    · intro hd
      by_contra hc
      push_neg at hc
      rw [Equiv.swap_apply_of_ne_of_ne hc.1 hc.2] at hd
      exact hd rfl
    · rintro (rfl | rfl)
      · rw [Equiv.swap_apply_left]
        intro he
        exact hne (hv.getElem?_inj hj he).symm
      · rw [Equiv.swap_apply_right]
        intro he
        exact hne (hv.getElem?_inj hi he)
  · show (HooLib.swap p.blocks_ _ _)[_]? = _
    rw [hget, Equiv.swap_apply_left]
  · show (HooLib.swap p.blocks_ _ _)[_]? = _
    rw [hget, Equiv.swap_apply_right]

end NPuzzle

/-- C4: on a valid grid whose blank sits at `(x, y)`, a `NPuzzle::move` that does not throw
leaves a grid of the same size that differs from the old one in exactly two cells, the blank's
old cell and the target cell `(x + dx, y + dy)`, whose values are exchanged; the new block
sequence is a rearrangement of the old one and the puzzle is valid again. -/
theorem move_exchanges_two_cells (p : NPuzzle) (dir : DIRECTION) (x y : Int)
    (hv : p.Valid) (hx : 0 ≤ x ∧ x < p.width_) (hy : 0 ≤ y ∧ y < p.height_)
    (hblank : p.blocks_[(y * p.width_ + x).toNat]? = some 0)
    (hok : (p.move dir).2 = none) :
    (y * p.width_ + x).toNat ≠ ((y + dir.offset.2) * p.width_ + (x + dir.offset.1)).toNat ∧
      (y * p.width_ + x).toNat < p.blocks_.length ∧
      ((y + dir.offset.2) * p.width_ + (x + dir.offset.1)).toNat < p.blocks_.length ∧
      (p.move dir).1.blocks_.length = p.blocks_.length ∧
      (∀ k : Nat, (p.move dir).1.blocks_[k]? ≠ p.blocks_[k]? ↔
        (k = (y * p.width_ + x).toNat ∨
          k = ((y + dir.offset.2) * p.width_ + (x + dir.offset.1)).toNat)) ∧
      (p.move dir).1.blocks_[(y * p.width_ + x).toNat]?
        = p.blocks_[((y + dir.offset.2) * p.width_ + (x + dir.offset.1)).toNat]? ∧
      (p.move dir).1.blocks_[((y + dir.offset.2) * p.width_ + (x + dir.offset.1)).toNat]?
        = p.blocks_[(y * p.width_ + x).toNat]? ∧
      (p.move dir).1.blocks_.Perm p.blocks_ ∧
      (p.move dir).1.Valid :=
  hv.move_frame dir x y hx hy hblank hok

/-- Witness for C4: the 3×3 grid `1 2 3 / 4 5 6 / 7 0 8`, whose blank sits at `(1, 2)`, moved
west. -/
theorem move_exchanges_two_cells_witness :
    ((NPuzzle.mk 3 3 [1, 2, 3, 4, 5, 6, 7, 0, 8]).move DIRECTION.WEST).1.blocks_.Perm
        [1, 2, 3, 4, 5, 6, 7, 0, 8] ∧
      ((NPuzzle.mk 3 3 [1, 2, 3, 4, 5, 6, 7, 0, 8]).move DIRECTION.WEST).1.blocks_
        = [1, 2, 3, 4, 5, 6, 7, 8, 0] :=
  ⟨(move_exchanges_two_cells (NPuzzle.mk 3 3 [1, 2, 3, 4, 5, 6, 7, 0, 8]) DIRECTION.WEST 1 2
      ⟨by decide, by decide, by decide⟩ ⟨by decide, by decide⟩ ⟨by decide, by decide⟩
      (by decide) (by decide)).2.2.2.2.2.2.2.1, by decide⟩

/-! ## Keyboard -/

namespace Keyboard

theorem update_of_held (kb : Keyboard) (order : List (Key × DIRECTION))
    (horder : order.Perm key2dir) (D : DIRECTION) (press : Key → Bool)
    (hpress : ∀ e ∈ key2dir, press e.1 = true ↔ e.2 = D) :
    kb.update order press
      = { hasPressed_ := if kb.prevDir_.isNone then true else false, prevDir_ := some D } := by
  have hex : ∃ e ∈ key2dir, e.2 = D := by
    cases D
    · exact ⟨(.Up, .NORTH), by simp [key2dir], rfl⟩
    · exact ⟨(.Down, .SOUTH), by simp [key2dir], rfl⟩
    · exact ⟨(.Left, .WEST), by simp [key2dir], rfl⟩
    · exact ⟨(.Right, .EAST), by simp [key2dir], rfl⟩
  obtain ⟨e, he, heD⟩ := hex
  have hsome : (order.find? (fun elm => press elm.1)).isSome = true := by
    rw [List.find?_isSome]
    exact ⟨e, horder.mem_iff.mpr he, (hpress e he).mpr heD⟩
  obtain ⟨it, hit⟩ := Option.isSome_iff_exists.mp hsome
  have hmem : it ∈ key2dir := horder.mem_iff.mp (List.mem_of_find?_eq_some hit)
  have hp : press it.1 = true := by
    have := List.find?_some hit
    simpa using this
  have hD : it.2 = D := (hpress it hmem).mp hp
  unfold update
  rw [hit]
  simp [hD]

theorem update_of_idle (kb : Keyboard) (order : List (Key × DIRECTION))
    (horder : order.Perm key2dir) (idle : Key → Bool)
    (hidle : ∀ e ∈ key2dir, idle e.1 = false) :
    kb.update order idle = { hasPressed_ := false, prevDir_ := none } := by
  have hnone : order.find? (fun elm => idle elm.1) = none := by
    rw [List.find?_eq_none]
    intro e he
    simp [hidle e (horder.mem_iff.mp he)]
  unfold update
  rw [hnone]

theorem hold_succ_of_held (order : List (Key × DIRECTION)) (horder : order.Perm key2dir)
    (D : DIRECTION) (press : Key → Bool) (hpress : ∀ e ∈ key2dir, press e.1 = true ↔ e.2 = D)
    (m : Nat) :
    hold order press (m + 1) init
      = { hasPressed_ := decide (m = 0), prevDir_ := some D } := by
  induction m with
  | zero =>
    show (hold order press 0 init).update order press = _
    rw [update_of_held _ order horder D press hpress]
    rfl
  | succ n ih =>
    show (hold order press (n + 1) init).update order press = _
    rw [update_of_held _ order horder D press hpress, ih]
    simp

end Keyboard

/-- C6: starting from a freshly constructed `Keyboard`, while exactly the key of direction `D` is
held the first `update()` makes `getPressedDir()` return `D` and each of the following ones
(calls `2 .. k`, for every `k`) makes it return nothing; an `update()` with no key held reports nothing, and
the next `update()` with `D` held again reports `D` a second time.  This holds for every order in
which the key table is traversed. -/
theorem held_direction_reported_once (order : List (Key × DIRECTION))
    (horder : order.Perm Keyboard.key2dir) (D : DIRECTION) (press idle : Key → Bool)
    (hpress : ∀ e ∈ Keyboard.key2dir, press e.1 = true ↔ e.2 = D)
    (hidle : ∀ e ∈ Keyboard.key2dir, idle e.1 = false) (k : Nat) :
    (Keyboard.hold order press 1 Keyboard.init).getPressedDir = some D ∧
      (∀ m : Nat, 2 ≤ m → m ≤ k →
        (Keyboard.hold order press m Keyboard.init).getPressedDir = none) ∧
      ((Keyboard.hold order press k Keyboard.init).update order idle).getPressedDir = none ∧
      (((Keyboard.hold order press k Keyboard.init).update order idle).update order
          press).getPressedDir = some D := by
  refine ⟨?_, ?_, ?_, ?_⟩
  · rw [Keyboard.hold_succ_of_held order horder D press hpress 0]
    rfl
  · intro m hm _
    obtain ⟨n, rfl⟩ : ∃ n, m = n + 1 := ⟨m - 1, by omega⟩
    rw [Keyboard.hold_succ_of_held order horder D press hpress n]
    have : n ≠ 0 := by omega
    simp [Keyboard.getPressedDir, this]
  · rw [Keyboard.update_of_idle _ order horder idle hidle]
    rfl
  · rw [Keyboard.update_of_idle _ order horder idle hidle,
      Keyboard.update_of_held _ order horder D press hpress]
    rfl

/-- Witness for C6: the Left key (direction WEST) held for five frames, released, pressed
again, with the table traversed in its written order. -/
theorem held_direction_reported_once_witness :
    (Keyboard.hold Keyboard.key2dir (fun key => decide (key = Key.Left)) 1
        Keyboard.init).getPressedDir = some DIRECTION.WEST ∧
      (∀ m : Nat, 2 ≤ m → m ≤ 5 →
        (Keyboard.hold Keyboard.key2dir (fun key => decide (key = Key.Left)) m
          Keyboard.init).getPressedDir = none) ∧
      ((Keyboard.hold Keyboard.key2dir (fun key => decide (key = Key.Left)) 5
          Keyboard.init).update Keyboard.key2dir (fun _ => false)).getPressedDir = none ∧
      (((Keyboard.hold Keyboard.key2dir (fun key => decide (key = Key.Left)) 5
          Keyboard.init).update Keyboard.key2dir (fun _ => false)).update Keyboard.key2dir
          (fun key => decide (key = Key.Left))).getPressedDir = some DIRECTION.WEST :=
  held_direction_reported_once Keyboard.key2dir (List.Perm.refl _) DIRECTION.WEST
    (fun key => decide (key = Key.Left)) (fun _ => false) (by decide) (by decide) 5

/-! ## Rounding -/

namespace Fp

theorem roundHalfEven_bounds (x : ℚ) :
    ⌊x⌋ ≤ roundHalfEven x ∧ roundHalfEven x ≤ ⌊x⌋ + 1 := by
  unfold roundHalfEven
  split_ifs <;> constructor <;> omega

theorem roundHalfEven_sub_le (x : ℚ) : |(roundHalfEven x : ℚ) - x| ≤ 1 / 2 := by
  have h0 : (⌊x⌋ : ℚ) ≤ x := Int.floor_le x
  have h1 : x < ⌊x⌋ + 1 := Int.lt_floor_add_one x
  unfold roundHalfEven
  rw [abs_le]
  split_ifs with a b c
  · constructor <;> linarith
  · push_cast
    constructor <;> linarith
  · constructor <;> linarith
  · push_cast
    constructor <;> linarith

theorem roundHalfEven_intCast (n : ℤ) : roundHalfEven (n : ℚ) = n := by
  unfold roundHalfEven
  simp

theorem le_roundHalfEven (k : ℤ) (x : ℚ) (h : (k : ℚ) ≤ x) : k ≤ roundHalfEven x :=
  (Int.le_floor.mpr h).trans (roundHalfEven_bounds x).1

theorem roundHalfEven_le (k : ℤ) (x : ℚ) (h : x ≤ (k : ℚ)) : roundHalfEven x ≤ k := by
  have h1 := (roundHalfEven_bounds x).2
  by_cases hx : x = (k : ℚ)
  · rw [hx, roundHalfEven_intCast]
  · have : x < (k : ℚ) := lt_of_le_of_ne h hx
    have : ⌊x⌋ < k := Int.floor_lt.mpr this
    omega

theorem roundNearest_zero (p : Nat) : roundNearest p 0 = 0 := by
  simp [roundNearest]

theorem roundNearest_pos_eq (p : Nat) (q : ℚ) (hq : 0 < q) :
    roundNearest p q = (roundHalfEven (q / 2 ^ (Int.log 2 q - p + 1)) : ℚ) * 2 ^ (Int.log 2 q - p + 1) := by
  unfold roundNearest
  rw [if_neg hq.ne', abs_of_pos hq]

theorem log_spec (q : ℚ) (hq : 0 < q) :
    (2 : ℚ) ^ Int.log 2 q ≤ q ∧ q < (2 : ℚ) ^ (Int.log 2 q + 1) := by
  have h1 := @Int.zpow_log_le_self ℚ _ _ 2 q (by norm_num) hq
  have h2 := @Int.lt_zpow_succ_log_self ℚ _ _ 2 (by norm_num) q
  exact ⟨by exact_mod_cast h1, by exact_mod_cast h2⟩

theorem ulp_pos (e : ℤ) : (0 : ℚ) < 2 ^ e := zpow_pos (by norm_num) e

/-- The scaled significand lies in `[2^(p-1), 2^p)`. -/
theorem significand_bounds (p : Nat) (hp : 1 ≤ p) (q : ℚ) (hq : 0 < q) :
    ((2 ^ (p - 1) : ℤ) : ℚ) ≤ q / 2 ^ (Int.log 2 q - p + 1) ∧
      q / 2 ^ (Int.log 2 q - p + 1) < ((2 ^ p : ℤ) : ℚ) := by
  obtain ⟨h1, h2⟩ := log_spec q hq
  have hu := ulp_pos (Int.log 2 q - p + 1)
  constructor
  · rw [le_div_iff₀ hu]
    calc ((2 ^ (p - 1) : ℤ) : ℚ) * 2 ^ (Int.log 2 q - p + 1)
        = (2 : ℚ) ^ ((p - 1 : ℕ) : ℤ) * 2 ^ (Int.log 2 q - p + 1) := by push_cast; rw [zpow_natCast]
      _ = (2 : ℚ) ^ (Int.log 2 q) := by
          rw [← zpow_add₀ (by norm_num : (2 : ℚ) ≠ 0)]
          congr 1
          omega
      _ ≤ q := h1
  · rw [div_lt_iff₀ hu]
    calc q < (2 : ℚ) ^ (Int.log 2 q + 1) := h2
      _ = (2 : ℚ) ^ ((p : ℕ) : ℤ) * 2 ^ (Int.log 2 q - p + 1) := by
          rw [← zpow_add₀ (by norm_num : (2 : ℚ) ≠ 0)]
          congr 1
          omega
      _ = ((2 ^ p : ℤ) : ℚ) * 2 ^ (Int.log 2 q - p + 1) := by push_cast; rw [zpow_natCast]


theorem roundNearest_pos (p : Nat) (hp : 1 ≤ p) (q : ℚ) (hq : 0 < q) : 0 < roundNearest p q := by
  rw [roundNearest_pos_eq p q hq]
  have hs := (significand_bounds p hp q hq).1
  have hN := le_roundHalfEven _ _ hs
  have hpos : (0 : ℤ) < 2 ^ (p - 1) := by positivity
  have : (0 : ℚ) < (roundHalfEven (q / 2 ^ (Int.log 2 q - p + 1)) : ℚ) := by
    exact_mod_cast lt_of_lt_of_le hpos hN
  exact mul_pos this (ulp_pos _)

theorem roundNearest_nonneg (p : Nat) (hp : 1 ≤ p) (q : ℚ) (hq : 0 ≤ q) : 0 ≤ roundNearest p q := by
  rcases hq.eq_or_lt with h | h
  · rw [← h, roundNearest_zero]
  · exact (roundNearest_pos p hp q h).le

/-- Rounding to `p` bits moves a non-negative number by at most the fraction `2^-p` of it. -/
theorem roundNearest_sub_le (p : Nat) (q : ℚ) (hq : 0 ≤ q) : |roundNearest p q - q| ≤ q / 2 ^ p := by
  rcases hq.eq_or_lt with h | h
  · rw [← h, roundNearest_zero]
    simp
  rw [roundNearest_pos_eq p q h]
  have hu := ulp_pos (Int.log 2 q - p + 1)
  have hr := roundHalfEven_sub_le (q / 2 ^ (Int.log 2 q - p + 1))
  have e1 : (roundHalfEven (q / 2 ^ (Int.log 2 q - p + 1)) : ℚ) * 2 ^ (Int.log 2 q - p + 1) - q
      = ((roundHalfEven (q / 2 ^ (Int.log 2 q - p + 1)) : ℚ) - q / 2 ^ (Int.log 2 q - p + 1))
          * 2 ^ (Int.log 2 q - p + 1) := by
    field_simp
  rw [e1, abs_mul, abs_of_pos hu]
  have e2 : (2 : ℚ) ^ (Int.log 2 q - p + 1) = 2 ^ Int.log 2 q / 2 ^ p * 2 := by
    rw [zpow_add₀ (by norm_num : (2 : ℚ) ≠ 0), zpow_sub₀ (by norm_num : (2 : ℚ) ≠ 0), zpow_natCast]
    simp
  have h2p : (0 : ℚ) < 2 ^ p := by positivity
  calc |(roundHalfEven (q / 2 ^ (Int.log 2 q - p + 1)) : ℚ) - q / 2 ^ (Int.log 2 q - p + 1)|
        * 2 ^ (Int.log 2 q - p + 1)
      ≤ 1 / 2 * 2 ^ (Int.log 2 q - p + 1) := mul_le_mul_of_nonneg_right hr hu.le
    _ = 2 ^ Int.log 2 q / 2 ^ p := by rw [e2]; ring
    _ ≤ q / 2 ^ p := div_le_div_of_nonneg_right (log_spec q h).1 h2p.le

theorem roundNearest_le (p : Nat) (q : ℚ) (hq : 0 ≤ q) : roundNearest p q ≤ q * (1 + 1 / 2 ^ p) := by
  have := (abs_le.mp (roundNearest_sub_le p q hq)).2
  have e : q * (1 + 1 / 2 ^ p) = q + q / 2 ^ p := by ring
  linarith

theorem le_roundNearest (p : Nat) (q : ℚ) (hq : 0 ≤ q) : q * (1 - 1 / 2 ^ p) ≤ roundNearest p q := by
  have := (abs_le.mp (roundNearest_sub_le p q hq)).1
  have e : q * (1 - 1 / 2 ^ p) = q - q / 2 ^ p := by ring
  linarith

/-- A positive number `n * 2^k` with `n < 2^p` is a `p`-bit number: rounding leaves it alone. -/
theorem roundNearest_of_repr (p : Nat) (n k : ℤ) (hn0 : 0 < n) (hn : n < 2 ^ p) :
    roundNearest p ((n : ℚ) * 2 ^ k) = (n : ℚ) * 2 ^ k := by
  have hq : (0 : ℚ) < (n : ℚ) * 2 ^ k := mul_pos (by exact_mod_cast hn0) (ulp_pos k)
  obtain ⟨h1, _⟩ := log_spec _ hq
  -- the exponent of the last place is at most `k`
  have hlt : (2 : ℚ) ^ Int.log 2 ((n : ℚ) * 2 ^ k) < 2 ^ ((p : ℤ) + k) := by
    calc (2 : ℚ) ^ Int.log 2 ((n : ℚ) * 2 ^ k) ≤ (n : ℚ) * 2 ^ k := h1
      _ < (2 : ℚ) ^ (p : ℤ) * 2 ^ k := by
          apply mul_lt_mul_of_pos_right _ (ulp_pos k)
          rw [zpow_natCast]
          exact_mod_cast hn
      _ = 2 ^ ((p : ℤ) + k) := (zpow_add₀ (by norm_num : (2 : ℚ) ≠ 0) _ _).symm
  have hexp : Int.log 2 ((n : ℚ) * 2 ^ k) < (p : ℤ) + k :=
    (zpow_lt_zpow_iff_right₀ (by norm_num : (1 : ℚ) < 2)).mp hlt
  obtain ⟨j, hj⟩ : ∃ j : ℕ, k = (Int.log 2 ((n : ℚ) * 2 ^ k) - p + 1) + (j : ℤ) :=
    ⟨(k - (Int.log 2 ((n : ℚ) * 2 ^ k) - p + 1)).toNat, by omega⟩
  rw [roundNearest_pos_eq p _ hq]
  have hu := ulp_pos (Int.log 2 ((n : ℚ) * 2 ^ k) - p + 1)
  have hdiv : (n : ℚ) * 2 ^ k / 2 ^ (Int.log 2 ((n : ℚ) * 2 ^ k) - p + 1)
      = ((n * 2 ^ j : ℤ) : ℚ) := by
    rw [div_eq_iff hu.ne']
    push_cast
    nth_rewrite 1 [hj]
    rw [zpow_add₀ (by norm_num : (2 : ℚ) ≠ 0), zpow_natCast]
    ring
  rw [hdiv, roundHalfEven_intCast, ← hdiv]
  field_simp

/-- The result of rounding a positive number is a `p`-bit number. -/
theorem roundNearest_repr (p : Nat) (hp : 1 ≤ p) (q : ℚ) (hq : 0 < q) :
    ∃ n k : ℤ, 0 < n ∧ n < 2 ^ p ∧ roundNearest p q = (n : ℚ) * 2 ^ k := by
  obtain ⟨hs1, hs2⟩ := significand_bounds p hp q hq
  have hN1 := le_roundHalfEven _ _ hs1
  have hN2 := roundHalfEven_le _ _ hs2.le
  have hpos : (0 : ℤ) < 2 ^ (p - 1) := by positivity
  rw [roundNearest_pos_eq p q hq]
  rcases hN2.eq_or_lt with h | h
  · refine ⟨1, Int.log 2 q + 1, by norm_num, ?_, ?_⟩
    · exact one_lt_pow₀ (by norm_num) (by omega)
    · rw [h]
      push_cast
      rw [one_mul, ← zpow_natCast, ← zpow_add₀ (by norm_num : (2 : ℚ) ≠ 0)]
      congr 1
      omega
  · exact ⟨_, _, by omega, h, rfl⟩

theorem roundNearest_roundNearest (p : Nat) (hp : 1 ≤ p) (q : ℚ) (hq : 0 ≤ q) :
    roundNearest p (roundNearest p q) = roundNearest p q := by
  rcases hq.eq_or_lt with h | h
  · rw [← h, roundNearest_zero, roundNearest_zero]
  · obtain ⟨n, k, hn0, hn, he⟩ := roundNearest_repr p hp q h
    rw [he, roundNearest_of_repr p n k hn0 hn]

theorem one_le_roundNearest (p : Nat) (hp : 1 ≤ p) (q : ℚ) (hq : 1 ≤ q) : 1 ≤ roundNearest p q := by
  have hq0 : 0 < q := by linarith
  have he : 0 ≤ Int.log 2 q := by
    rw [← Int.zpow_le_iff_le_log (by norm_num) hq0]
    simpa using hq
  have hs := (significand_bounds p hp q hq0).1
  have hN := le_roundHalfEven _ _ hs
  rw [roundNearest_pos_eq p q hq0]
  have hu := ulp_pos (Int.log 2 q - p + 1)
  calc (1 : ℚ) ≤ 2 ^ Int.log 2 q := one_le_zpow₀ (by norm_num) he
    _ = ((2 ^ (p - 1) : ℤ) : ℚ) * 2 ^ (Int.log 2 q - p + 1) := by
        push_cast
        rw [← zpow_natCast, ← zpow_add₀ (by norm_num : (2 : ℚ) ≠ 0)]
        congr 1
        omega
    _ ≤ (roundHalfEven (q / 2 ^ (Int.log 2 q - p + 1)) : ℚ) * 2 ^ (Int.log 2 q - p + 1) :=
        mul_le_mul_of_nonneg_right (by exact_mod_cast hN) hu.le


theorem roundHalfEven_eq_of_near (x : ℚ) (n : ℤ) (h : |x - (n : ℚ)| < 1 / 2) :
    roundHalfEven x = n := by
  have hb := roundHalfEven_sub_le x
  rw [abs_le] at hb
  rw [abs_lt] at h
  have h1 : ((roundHalfEven x : ℤ) : ℚ) < (n : ℚ) + 1 := by linarith
  have h2 : (n : ℚ) - 1 < ((roundHalfEven x : ℤ) : ℚ) := by linarith
  have h3 : roundHalfEven x < n + 1 := by exact_mod_cast h1
  have h4 : n - 1 < roundHalfEven x := by exact_mod_cast h2
  omega

/-- Rounding a positive number with `2^e ≤ q < 2^(e+1)` whose scaled value is nearer to `n` than
to any other integer. -/
theorem roundNearest_eq_of_near (p : Nat) (q : ℚ) (e n : ℤ) (hq : 0 < q)
    (h1 : (2 : ℚ) ^ e ≤ q) (h2 : q < (2 : ℚ) ^ (e + 1))
    (hn : |q / 2 ^ (e - p + 1) - (n : ℚ)| < 1 / 2) :
    roundNearest p q = (n : ℚ) * 2 ^ (e - p + 1) := by
  have he : Int.log 2 q = e := by
    have a1 : e ≤ Int.log 2 q := by
      rw [← Int.zpow_le_iff_le_log (by norm_num) hq]
      exact_mod_cast h1
    have a2 : Int.log 2 q < e + 1 := by
      rw [← Int.lt_zpow_iff_log_lt (by norm_num) hq]
      exact_mod_cast h2
    omega
  rw [roundNearest_pos_eq p q hq, he, roundHalfEven_eq_of_near _ n hn]

theorem roundNearest_eq_self (p : Nat) (q : ℚ) (n k : ℤ) (hn0 : 0 < n) (hn : n < 2 ^ p)
    (hq : q = (n : ℚ) * 2 ^ k) : roundNearest p q = q := by
  rw [hq]
  exact roundNearest_of_repr p n k hn0 hn

end Fp

/-! ## Scenes -/

namespace Scene

theorem process_Finish_handle (i : Int) (c : Clock) (now : Int) (kb : Keyboard) :
    (process (.Finish i c) now kb).2 = Handle.self ∧
      ∃ i1 c1, (process (.Finish i c) now kb).1 = .Finish i1 c1 := by
  unfold process
  split_ifs
  · exact ⟨rfl, _, _, rfl⟩
  · exact ⟨rfl, _, _, rfl⟩

theorem step_Finish_eq (i : Int) (c : Clock) (now : Int) (kb : Keyboard) :
    step (.Finish i c) now kb = (process (.Finish i c) now kb).1 := by
  obtain ⟨h1, i1, c1, h2⟩ := process_Finish_handle i c now kb
  unfold step
  generalize process (.Finish i c) now kb = r at h1 h2
  obtain ⟨a, b⟩ := r
  simp only at h1 h2
  subst h1 h2
  rfl

theorem step_Finish (i : Int) (c : Clock) (now : Int) (kb : Keyboard) :
    ∃ i1 c1, step (.Finish i c) now kb = .Finish i1 c1 := by
  rw [step_Finish_eq]
  exact (process_Finish_handle i c now kb).2

theorem run_Finish (frames : List (Nat × Keyboard)) (i : Int) (c : Clock) (now : Int) :
    ∃ i1 c1, run (.Finish i c) now frames = .Finish i1 c1 := by
  induction frames generalizing i c now with
  | nil => exact ⟨i, c, rfl⟩
  | cons f fs ih =>
    obtain ⟨i1, c1, h⟩ := step_Finish i c (now + f.1) f.2
    show ∃ i2 c2, run (step (.Finish i c) (now + f.1) f.2) (now + f.1) fs = .Finish i2 c2
    rw [h]
    exact ih i1 c1 _

theorem process_Game_finished (g : PicPuzzle) (hg : g.hasFinished = true) (now : Int)
    (kb : Keyboard) : process (.Game g) now kb = (.Game g, Handle.self) := by
  unfold process
  simp [hg]

theorem step_Wiping (prev : Scene) (i : Int) (c : Clock) (h : Bool) (speed level : ℚ)
    (start now : Int) (kb : Keyboard) :
    step (.Wiping prev (.Finish i c) h speed level ⟨start⟩) now kb
      = if Fp.toDouble (level + Fp.toDouble (Clock.asSeconds (now - start) * speed)) < 1 then
          .Wiping (process prev now kb).1 (process (.Finish i c) now kb).1 h speed
            (Fp.toDouble (level + Fp.toDouble (Clock.asSeconds (now - start) * speed))) ⟨now⟩
        else (process (.Finish i c) now kb).1 := by
  obtain ⟨_, i1, c1, hf⟩ := process_Finish_handle i c now kb
  unfold step
  rw [process]
  simp only [Clock.restart]
  rw [hf]
  split_ifs <;> rfl

/-- The advance of the wipe level for a frame without elapsed time is zero. -/
theorem increment_zero (speed : ℚ) : Fp.toDouble (Clock.asSeconds 0 * speed) = 0 := by
  simp [Clock.asSeconds, Fp.toFloat, Fp.toDouble, Fp.roundNearest_zero]

/-- The advance of the wipe level for a frame of `d` microseconds at speed 1/4 is `d / 4000000`
up to the fraction `2^-22` of it. -/
theorem increment_bounds (d : ℕ) :
    (d : ℚ) / 4000000 * (1 - 1 / 2 ^ 22) ≤ Fp.toDouble (Clock.asSeconds (d : ℤ) * (1 / 4)) ∧
      Fp.toDouble (Clock.asSeconds (d : ℤ) * (1 / 4)) ≤ (d : ℚ) / 4000000 * (1 + 1 / 2 ^ 22) := by
  unfold Clock.asSeconds Fp.toDouble Fp.toFloat
  have hd : (0 : ℚ) ≤ (d : ℚ) := Nat.cast_nonneg d
  have ha0 := Fp.roundNearest_nonneg 24 (by norm_num) (d : ℚ) hd
  have ha1 := Fp.le_roundNearest 24 (d : ℚ) hd
  have ha2 := Fp.roundNearest_le 24 (d : ℚ) hd
  have hb : (0 : ℚ) ≤ Fp.roundNearest 24 (d : ℚ) / 1000000 := by positivity
  have hf0 := Fp.roundNearest_nonneg 24 (by norm_num) _ hb
  have hf1 := Fp.le_roundNearest 24 _ hb
  have hf2 := Fp.roundNearest_le 24 _ hb
  have hc : (0 : ℚ) ≤ Fp.roundNearest 24 (Fp.roundNearest 24 (d : ℚ) / 1000000) * (1 / 4) := by
    positivity
  have hx1 := Fp.le_roundNearest 53 _ hc
  have hx2 := Fp.roundNearest_le 53 _ hc
  push_cast
  generalize Fp.roundNearest 53
    (Fp.roundNearest 24 (Fp.roundNearest 24 (d : ℚ) / 1000000) * (1 / 4)) = x at hx1 hx2 ⊢
  generalize Fp.roundNearest 24 (Fp.roundNearest 24 (d : ℚ) / 1000000) = f at hf0 hf1 hf2 hx1 hx2
  generalize Fp.roundNearest 24 (d : ℚ) = a at ha0 ha1 ha2 hf1 hf2
  norm_num at ha1 ha2 hf1 hf2 hx1 hx2 ⊢
  constructor <;> linarith

end Scene

namespace Scene

/-- One frame of the wipe at speed 1/4.  Before the frame, `T` microseconds have elapsed and the
level `L` is a `double` below 1 within `T * (1 ± 2^-22) / 4000000 ± T * 2^-52`; the frame lasts
`d` microseconds.  The new level is a `double`; if it is below 1 it obeys the same bounds for
`T + d`; it is below 1 when `T + d ≤ 3999999` and at least 1 when `T + d ≥ 4000001`. -/
theorem level_step (L T : ℚ) (d : ℕ) (hL0 : 0 ≤ L) (hL1 : L < 1)
    (hr : Fp.toDouble L = L)
    (hlo : ((1 - 1 / 2 ^ 22) / 4000000 - 1 / 2 ^ 52) * T ≤ L)
    (hhi : L ≤ ((1 + 1 / 2 ^ 22) / 4000000 + 1 / 2 ^ 52) * T) :
    Fp.toDouble (Fp.toDouble (L + Fp.toDouble (Clock.asSeconds (d : ℤ) * (1 / 4))))
        = Fp.toDouble (L + Fp.toDouble (Clock.asSeconds (d : ℤ) * (1 / 4))) ∧
      0 ≤ Fp.toDouble (L + Fp.toDouble (Clock.asSeconds (d : ℤ) * (1 / 4))) ∧
      (Fp.toDouble (L + Fp.toDouble (Clock.asSeconds (d : ℤ) * (1 / 4))) < 1 →
        ((1 - 1 / 2 ^ 22) / 4000000 - 1 / 2 ^ 52) * (T + d)
            ≤ Fp.toDouble (L + Fp.toDouble (Clock.asSeconds (d : ℤ) * (1 / 4))) ∧
          Fp.toDouble (L + Fp.toDouble (Clock.asSeconds (d : ℤ) * (1 / 4)))
            ≤ ((1 + 1 / 2 ^ 22) / 4000000 + 1 / 2 ^ 52) * (T + d)) ∧
      (T + d ≤ 3999999 →
        Fp.toDouble (L + Fp.toDouble (Clock.asSeconds (d : ℤ) * (1 / 4))) < 1) := by
  rcases Nat.eq_zero_or_pos d with h0 | hpos
  · subst h0
    have hz : Fp.toDouble (Clock.asSeconds ((0 : ℕ) : ℤ) * (1 / 4)) = 0 := by
      simpa using increment_zero (1 / 4)
    rw [hz, add_zero, hr, hr]
    refine ⟨rfl, hL0, fun _ => ?_, fun _ => hL1⟩
    simpa using And.intro hlo hhi
  · obtain ⟨hx1, hx2⟩ := increment_bounds d
    have hd1 : (1 : ℚ) ≤ (d : ℚ) := by exact_mod_cast hpos
    generalize Fp.toDouble (Clock.asSeconds (d : ℤ) * (1 / 4)) = x at hx1 hx2 ⊢
    have hx0 : 0 ≤ x := by
      have : (0 : ℚ) ≤ (d : ℚ) / 4000000 * (1 - 1 / 2 ^ 22) := by positivity
      linarith
    have hS0 : 0 ≤ L + x := by linarith
    have e1 := Fp.le_roundNearest 53 (L + x) hS0
    have e2 := Fp.roundNearest_le 53 (L + x) hS0
    have e3 := Fp.roundNearest_roundNearest 53 (by norm_num) (L + x) hS0
    have e4 := Fp.roundNearest_nonneg 53 (by norm_num) (L + x) hS0
    unfold Fp.toDouble
    generalize Fp.roundNearest 53 (L + x) = L1 at e1 e2 e3 e4 ⊢
    norm_num at e1 e2 hx1 hx2 hlo hhi ⊢
    refine ⟨e3, e4, fun hlt => ⟨by linarith, by linarith⟩, fun hT => by linarith⟩

theorem level_ge_one (L T : ℚ) (hT : 4000001 ≤ T)
    (hlo : ((1 - 1 / 2 ^ 22) / 4000000 - 1 / 2 ^ 52) * T ≤ L) : 1 ≤ L := by
  norm_num at hlo ⊢
  linarith

end Scene

namespace Scene

theorem frames_sum_nonneg (fs : List (Nat × Keyboard)) :
    (0 : ℚ) ≤ (((fs.map (fun f => (f.1 : ℤ))).sum : ℤ) : ℚ) := by
  have h0 : (0 : ℤ) ≤ (fs.map (fun f => (f.1 : ℤ))).sum := by
    apply List.sum_nonneg
    intro x hx
    obtain ⟨g, _, rfl⟩ := List.mem_map.mp hx
    exact Int.natCast_nonneg _
  exact_mod_cast h0

/-- A wipe at speed 1/4 from a finished `Game` towards a `Finish` scene, driven frame by frame
from a level within the bounds of `level_step`: with at most 3999999 microseconds elapsed in
all, the driver still holds the wipe, its level below 1; with at least 4000001, it holds the
`Finish` scene.  Either way the `Finish` scene is in the state it has after being processed in
every frame. -/
theorem run_Wiping (frames : List (Nat × Keyboard)) (g : PicPuzzle)
    (hg : g.hasFinished = true) (i : Int) (c : Clock) (h : Bool) (L T : ℚ) (now : Int)
    (hL0 : 0 ≤ L) (hL1 : L < 1) (hr : Fp.toDouble L = L)
    (hlo : ((1 - 1 / 2 ^ 22) / 4000000 - 1 / 2 ^ 52) * T ≤ L)
    (hhi : L ≤ ((1 + 1 / 2 ^ 22) / 4000000 + 1 / 2 ^ 52) * T) :
    (T + (((frames.map (fun f => (f.1 : ℤ))).sum : ℤ) : ℚ) ≤ 3999999 →
        ∃ L1 : ℚ, L1 < 1 ∧
          run (.Wiping (.Game g) (.Finish i c) h (1 / 4) L ⟨now⟩) now frames
            = .Wiping (.Game g) (run (.Finish i c) now frames) h (1 / 4) L1
                ⟨now + (frames.map (fun f => (f.1 : ℤ))).sum⟩) ∧
      (4000001 ≤ T + (((frames.map (fun f => (f.1 : ℤ))).sum : ℤ) : ℚ) →
        run (.Wiping (.Game g) (.Finish i c) h (1 / 4) L ⟨now⟩) now frames
          = run (.Finish i c) now frames) := by
  induction frames generalizing i c L T now with
  | nil =>
    constructor
    · intro _
      exact ⟨L, hL1, by simp [run]⟩
    · intro hT
      simp only [List.map_nil, List.sum_nil, Int.cast_zero, add_zero] at hT
      exact absurd (level_ge_one L T hT hlo) (not_le.mpr hL1)
  | cons f fs ih =>
    have hsum : (((f :: fs).map (fun f => (f.1 : ℤ))).sum : ℤ)
        = (f.1 : ℤ) + (fs.map (fun f => (f.1 : ℤ))).sum := by simp
    have hsumq : T + ((((f :: fs).map (fun f => (f.1 : ℤ))).sum : ℤ) : ℚ)
        = (T + (f.1 : ℚ)) + (((fs.map (fun f => (f.1 : ℤ))).sum : ℤ) : ℚ) := by
      rw [hsum]
      push_cast
      ring
    have hrest := frames_sum_nonneg fs
    obtain ⟨_, i1, c1, hf⟩ := process_Finish_handle i c (now + f.1) f.2
    have hstep := step_Wiping (.Game g) i c h (1 / 4) L now (now + f.1) f.2
    rw [show now + (f.1 : ℤ) - now = (f.1 : ℤ) by ring, hf,
      process_Game_finished g hg] at hstep
    have hrunF : run (.Finish i c) now (f :: fs) = run (.Finish i1 c1) (now + f.1) fs := by
      show run (step (.Finish i c) (now + f.1) f.2) (now + f.1) fs = _
      rw [step_Finish_eq, hf]
    obtain ⟨k1, k2, k3, k4⟩ := level_step L T f.1 hL0 hL1 hr hlo hhi
    rw [hsumq, hrunF, hsum, ← add_assoc]
    show (_ → ∃ L1 : ℚ, L1 < 1 ∧
        run (step (.Wiping (.Game g) (.Finish i c) h (1 / 4) L ⟨now⟩) (now + f.1) f.2)
          (now + f.1) fs = _) ∧
      (_ → run (step (.Wiping (.Game g) (.Finish i c) h (1 / 4) L ⟨now⟩) (now + f.1) f.2)
          (now + f.1) fs = _)
    rw [hstep]
    by_cases hl : Fp.toDouble (L + Fp.toDouble (Clock.asSeconds (f.1 : ℤ) * (1 / 4))) < 1
    · rw [if_pos hl]
      exact ih i1 c1 _ (T + (f.1 : ℚ)) (now + f.1) k2 hl k1 (k3 hl).1 (k3 hl).2
    · rw [if_neg hl]
      constructor
      · intro hT
        exact absurd (k4 (by linarith)) hl
      · intro _
        rfl

end Scene

namespace NPuzzle

theorem Valid.exists_blank {p : NPuzzle} (hv : p.Valid) :
    ∃ x y : Int, (0 ≤ x ∧ x < p.width_) ∧ (0 ≤ y ∧ y < p.height_) ∧
      p.blocks_[(y * p.width_ + x).toNat]? = some 0 := by
  have hw := hv.1
  have hh := hv.2.1
  have hpos : 0 < p.width_ * p.height_ := by positivity
  have hmem : (0 : Int) ∈ p.blocks_ := by
    rw [hv.2.2.mem_iff, List.mem_map]
    exact ⟨0, List.mem_range.mpr (by omega), rfl⟩
  have hlt : p.blocks_.indexOf 0 < p.blocks_.length := List.indexOf_lt_length.mpr hmem
  have hget : p.blocks_[p.blocks_.indexOf 0]? = some 0 := by
    rw [List.getElem?_eq_getElem hlt, List.getElem_indexOf hlt]
  have hlen := hv.length_int
  refine ⟨(p.blocks_.indexOf 0 : Int) % p.width_, (p.blocks_.indexOf 0 : Int) / p.width_,
    ⟨Int.emod_nonneg _ (by omega), Int.emod_lt_of_pos _ (by omega)⟩,
    ⟨Int.ediv_nonneg (by omega) (by omega), ?_⟩, ?_⟩
  · apply Int.ediv_lt_of_lt_mul (by omega)
    rw [mul_comm]
    omega
  · rw [Int.ediv_add_emod']
    simpa using hget

/-- A `move` that does not throw puts the blank into a different cell. -/
theorem Valid.blank_moves {p : NPuzzle} (hv : p.Valid) (dir : DIRECTION)
    (hok : (p.move dir).2 = none) (k : Nat) (h1 : p.blocks_[k]? = some 0) :
    (p.move dir).1.blocks_[k]? ≠ some 0 := by
  obtain ⟨x, y, hx, hy, hb⟩ := hv.exists_blank
  obtain ⟨hne, hi, hj, _, _, _, h7, _, hv2⟩ := hv.move_frame dir x y hx hy hb hok
  have hk : k = (y * p.width_ + x).toNat := by
    have hkl : k < p.blocks_.length := (List.getElem?_eq_some_iff.mp h1).1
    exact hv.getElem?_inj hkl (h1.trans hb.symm)
  intro h2
  rw [hb] at h7
  have hlen : (p.move dir).1.blocks_.length = p.blocks_.length := by
    have := hv2.length_int
    have := hv.length_int
    obtain ⟨_, _, _, h4, _⟩ := hv.move_frame dir x y hx hy hb hok
    exact h4
  have := hv2.getElem?_inj (by rw [hlen]; exact hj) (h7.trans h2.symm)
  exact hne (hk ▸ this.symm)

theorem isCorrect_last {p : NPuzzle} (h : p.isCorrect = true) :
    p.blocks_[(p.width_ * p.height_ - 1).toNat]? = some 0 := by
  unfold isCorrect at h
  simp only [Bool.and_eq_true, beq_iff_eq] at h
  exact h.2

theorem move_width (p : NPuzzle) (dir : DIRECTION) :
    (p.move dir).1.width_ = p.width_ ∧ (p.move dir).1.height_ = p.height_ := by
  unfold move
  simp only
  split_ifs <;> exact ⟨rfl, rfl⟩

/-- A valid grid that a legal move solves is not solved itself. -/
theorem Valid.not_isCorrect_of_move {p : NPuzzle} (hv : p.Valid) (dir : DIRECTION)
    (hok : (p.move dir).2 = none) (hs : (p.move dir).1.isCorrect = true) :
    p.isCorrect = false := by
  by_contra hc
  have hc1 : p.isCorrect = true := by simpa using hc
  have h1 := isCorrect_last hc1
  have h2 := isCorrect_last hs
  rw [(move_width p dir).1, (move_width p dir).2] at h2
  exact hv.blank_moves dir hok _ h1 h2

end NPuzzle

/-- C7 (the claim as stated fails): a `Game` scene holding the solved, valid 3×3 grid, in a frame
without key event, returns itself although its grid is solved; it does not return a wipe. -/
theorem game_process_solved_grid_returns_self :
    (NPuzzle.mk 3 3 [1, 2, 3, 4, 5, 6, 7, 8, 0]).Valid ∧
      (NPuzzle.mk 3 3 [1, 2, 3, 4, 5, 6, 7, 8, 0]).isCorrect = true ∧
      Keyboard.init.getPressedDir = none ∧
      Scene.process (.Game ⟨3, 3, NPuzzle.mk 3 3 [1, 2, 3, 4, 5, 6, 7, 8, 0]⟩) 0 Keyboard.init
        = (.Game ⟨3, 3, NPuzzle.mk 3 3 [1, 2, 3, 4, 5, 6, 7, 8, 0]⟩, Handle.self) ∧
      (Scene.process (.Game ⟨3, 3, NPuzzle.mk 3 3 [1, 2, 3, 4, 5, 6, 7, 8, 0]⟩) 0
          Keyboard.init).2
        ≠ Handle.fresh (.Wiping (.Game ⟨3, 3, NPuzzle.mk 3 3 [1, 2, 3, 4, 5, 6, 7, 8, 0]⟩)
            (.Finish 0 ⟨0⟩) false (1 / 4) 0 ⟨0⟩) := by
  refine ⟨⟨by decide, by decide, by decide⟩, by decide, rfl, ?_, ?_⟩
  · have h : (PicPuzzle.mk 3 3 (NPuzzle.mk 3 3 [1, 2, 3, 4, 5, 6, 7, 8, 0])).hasFinished = true := by
      decide
    simp [Scene.process, h]
  · have h : (PicPuzzle.mk 3 3 (NPuzzle.mk 3 3 [1, 2, 3, 4, 5, 6, 7, 8, 0])).hasFinished = true := by
      decide
    simp [Scene.process, h]

/-- C7 (as amended): `Game::process` leaves the grid as it is when it was already solved at the
start of the frame or no key event arrived, and otherwise leaves the grid after `NPuzzle::move`
(unchanged when that move throws).  It returns a fresh `Wiping` (previous scene = this `Game`,
next scene = a new `Finish` at frame 0, level 0, speed 1/4) exactly when the grid was not solved
at the start of the frame and is solved at its end; in every other case, a grid already solved
at the start included, it returns this same `Game` scene. -/
theorem game_process_returns (z : PicPuzzle) (now : Int) (kb : Keyboard) :
    Scene.process (.Game z) now kb =
      if z.puzzle_.isCorrect = false ∧
          (match z.puzzle_.isCorrect, kb.getPressedDir with
            | false, some dir => (z.puzzle_.move dir).1
            | _, _ => z.puzzle_).isCorrect = true then
        (.Game { z with puzzle_ := (match z.puzzle_.isCorrect, kb.getPressedDir with
                                    | false, some dir => (z.puzzle_.move dir).1
                                    | _, _ => z.puzzle_) },
          Handle.fresh (.Wiping
            (.Game { z with puzzle_ := (match z.puzzle_.isCorrect, kb.getPressedDir with
                                        | false, some dir => (z.puzzle_.move dir).1
                                        | _, _ => z.puzzle_) })
            (.Finish 0 ⟨now⟩) false (1 / 4) 0 ⟨now⟩))
      else
        (.Game { z with puzzle_ := (match z.puzzle_.isCorrect, kb.getPressedDir with
                                    | false, some dir => (z.puzzle_.move dir).1
                                    | _, _ => z.puzzle_) },
          Handle.self) := by
  unfold Scene.process
  cases hc : z.puzzle_.isCorrect <;> cases hd : kb.getPressedDir <;>
    simp [PicPuzzle.hasFinished, PicPuzzle.move, hc]

/-- C8 (as amended): from a `Game` scene whose valid grid becomes solved by the legal move `dir`,
a frame at instant `t0` with the key event `dir` returns a fresh `Wiping` (level 0, speed 1/4)
from this `Game` towards a new `Finish` scene.  `Wiping::process` returns itself when the
updated level is below 1 and its next scene otherwise.  Driving the wipe with any sequence of
frames (time steps in whole microseconds, any keyboard states): as long as at most 3.999999 s
have elapsed the driver holds the wipe, its level below 1; once a frame has run with at least
4.000001 s elapsed it holds the wipe's next scene, the `Finish` scene in the state it has after
being processed in every frame.  (At exactly 4 s either happens, depending on the rounding of
the `float` seconds.)  A `Finish` scene always returns itself, at any instant and for any
keyboard state. -/
theorem solving_move_wipes_then_finishes (z : PicPuzzle) (dir : DIRECTION) (kb : Keyboard)
    (t0 : Int) (hv : z.puzzle_.Valid) (hlegal : (z.puzzle_.move dir).2 = none)
    (hsolved : (z.puzzle_.move dir).1.isCorrect = true)
    (hkb : kb.getPressedDir = some dir) :
    Scene.process (.Game z) t0 kb
        = (.Game { z with puzzle_ := (z.puzzle_.move dir).1 },
            Handle.fresh (.Wiping (.Game { z with puzzle_ := (z.puzzle_.move dir).1 })
              (.Finish 0 ⟨t0⟩) false (1 / 4) 0 ⟨t0⟩)) ∧
      (∀ (prev next : Scene) (h : Bool) (speed level : ℚ) (clock : Clock) (now : Int)
          (kb1 : Keyboard),
        ∃ (prev1 next1 : Scene) (level1 : ℚ) (clock1 : Clock),
          Scene.process (.Wiping prev next h speed level clock) now kb1
            = (.Wiping prev1 next1 h speed level1 clock1,
                if level1 < 1 then Handle.self else Handle.next)) ∧
      (∀ frames : List (Nat × Keyboard),
        ((frames.map (fun f => (f.1 : ℤ))).sum ≤ 3999999 →
            ∃ level : ℚ, level < 1 ∧
              Scene.run (.Wiping (.Game { z with puzzle_ := (z.puzzle_.move dir).1 })
                  (.Finish 0 ⟨t0⟩) false (1 / 4) 0 ⟨t0⟩) t0 frames
                = .Wiping (.Game { z with puzzle_ := (z.puzzle_.move dir).1 })
                    (Scene.run (.Finish 0 ⟨t0⟩) t0 frames) false (1 / 4) level
                    ⟨t0 + (frames.map (fun f => (f.1 : ℤ))).sum⟩) ∧
          (4000001 ≤ (frames.map (fun f => (f.1 : ℤ))).sum →
            Scene.run (.Wiping (.Game { z with puzzle_ := (z.puzzle_.move dir).1 })
                (.Finish 0 ⟨t0⟩) false (1 / 4) 0 ⟨t0⟩) t0 frames
              = Scene.run (.Finish 0 ⟨t0⟩) t0 frames) ∧
          ∃ i c, Scene.run (.Finish 0 ⟨t0⟩) t0 frames = .Finish i c) ∧
      (∀ (i : Int) (c : Clock) (now : Int) (kb1 : Keyboard),
        (Scene.process (.Finish i c) now kb1).2 = Handle.self ∧
          ∃ i1 c1, Scene.step (.Finish i c) now kb1 = .Finish i1 c1) := by
  have hnot : z.puzzle_.isCorrect = false := hv.not_isCorrect_of_move dir hlegal hsolved
  have hstep : Scene.process (.Game z) t0 kb
      = (.Game { z with puzzle_ := (z.puzzle_.move dir).1 },
          Handle.fresh (.Wiping (.Game { z with puzzle_ := (z.puzzle_.move dir).1 })
            (.Finish 0 ⟨t0⟩) false (1 / 4) 0 ⟨t0⟩)) := by
    unfold Scene.process
    simp [PicPuzzle.hasFinished, PicPuzzle.move, hnot, hkb, hsolved]
  refine ⟨hstep, ?_, ?_, ?_⟩
  · intro prev next h speed level clock now kb1
    exact ⟨_, _, _, _, by rw [Scene.process]⟩
  · intro frames
    have hrun := Scene.run_Wiping frames { z with puzzle_ := (z.puzzle_.move dir).1 } hsolved 0
      ⟨t0⟩ false 0 0 t0 le_rfl (by norm_num)
      (by simp [Fp.toDouble, Fp.roundNearest_zero]) (by norm_num) (by norm_num)
    rw [zero_add] at hrun
    refine ⟨fun h => hrun.1 (by exact_mod_cast h), fun h => hrun.2 (by exact_mod_cast h),
      Scene.run_Finish frames 0 ⟨t0⟩ t0⟩
  · intro i c now kb1
    exact ⟨(Scene.process_Finish_handle i c now kb1).1, Scene.step_Finish i c now kb1⟩

namespace Scene

theorem run_Wiping_cons (g : PicPuzzle) (hg : g.hasFinished = true) (i i1 : Int) (c c1 : Clock)
    (h : Bool) (L L1 : ℚ) (now : Int) (f : Nat × Keyboard) (fs : List (Nat × Keyboard))
    (hf : (process (.Finish i c) (now + f.1) f.2).1 = .Finish i1 c1)
    (hL : Fp.toDouble (L + Fp.toDouble (Clock.asSeconds (f.1 : ℤ) * (1 / 4))) = L1)
    (hl : L1 < 1) :
    run (.Wiping (.Game g) (.Finish i c) h (1 / 4) L ⟨now⟩) now (f :: fs)
      = run (.Wiping (.Game g) (.Finish i1 c1) h (1 / 4) L1 ⟨now + f.1⟩) (now + f.1) fs := by
  have hstep := step_Wiping (.Game g) i c h (1 / 4) L now (now + f.1) f.2
  rw [show now + (f.1 : ℤ) - now = (f.1 : ℤ) by ring, hf, process_Game_finished g hg, hL,
    if_pos hl] at hstep
  show run (step (.Wiping (.Game g) (.Finish i c) h (1 / 4) L ⟨now⟩) (now + f.1) f.2)
    (now + f.1) fs = _
  rw [hstep]

theorem toDouble_eq (q v : ℚ) (n k : ℤ) (hv : q = v) (hn0 : 0 < n) (hn : n < 2 ^ 53)
    (hrep : v = (n : ℚ) * 2 ^ k) : Fp.toDouble q = v := by
  rw [hv]
  exact Fp.roundNearest_eq_self 53 v n k hn0 hn hrep

theorem asSeconds_700000 : Clock.asSeconds 700000 = 11744051 / 16777216 := by
  unfold Clock.asSeconds Fp.toFloat
  have h1 : Fp.roundNearest 24 ((700000 : ℤ) : ℚ) = 700000 :=
    Fp.roundNearest_eq_self 24 _ 700000 0 (by norm_num) (by norm_num) (by norm_num)
  rw [h1]
  have h2 := Fp.roundNearest_eq_of_near 24 (700000 / 1000000) (-1) 11744051 (by norm_num)
    (by norm_num) (by norm_num) (by rw [abs_lt]; constructor <;> norm_num)
  rw [h2]
  norm_num

theorem asSeconds_500000 : Clock.asSeconds 500000 = 1 / 2 := by
  unfold Clock.asSeconds Fp.toFloat
  have h1 : Fp.roundNearest 24 ((500000 : ℤ) : ℚ) = 500000 :=
    Fp.roundNearest_eq_self 24 _ 500000 0 (by norm_num) (by norm_num) (by norm_num)
  rw [h1, show (500000 : ℚ) / 1000000 = 1 / 2 by norm_num]
  exact Fp.roundNearest_eq_self 24 _ 1 (-1) (by norm_num) (by norm_num) (by norm_num)

end Scene

/-- C8 (the claim as stated fails): the 3×3 grid `1 2 3 / 4 5 6 / 7 0 8` is solved by the key
event WEST at instant 0, which returns the wipe.  After five frames of 0.7 s and one of 0.5 s,
4 s in all, the driver still holds the wipe: `0.7f` is `11744051 / 2^24`, below 0.7, and the
`double` level is `1 - 2^-26`, below 1, so `Wiping::process` has returned itself and not the
`Finish` scene. -/
theorem wipe_still_running_at_four_seconds :
    (([(700000, Keyboard.init), (700000, Keyboard.init), (700000, Keyboard.init),
        (700000, Keyboard.init), (700000, Keyboard.init), (500000, Keyboard.init)] :
        List (Nat × Keyboard)).map (fun f => (f.1 : ℤ))).sum = 4000000 ∧
      Scene.process (.Game ⟨3, 3, NPuzzle.mk 3 3 [1, 2, 3, 4, 5, 6, 7, 0, 8]⟩) 0
          ⟨true, some DIRECTION.WEST⟩
        = (.Game ⟨3, 3, NPuzzle.mk 3 3 [1, 2, 3, 4, 5, 6, 7, 8, 0]⟩,
            Handle.fresh (.Wiping (.Game ⟨3, 3, NPuzzle.mk 3 3 [1, 2, 3, 4, 5, 6, 7, 8, 0]⟩)
              (.Finish 0 ⟨0⟩) false (1 / 4) 0 ⟨0⟩)) ∧
      Scene.run (.Wiping (.Game ⟨3, 3, NPuzzle.mk 3 3 [1, 2, 3, 4, 5, 6, 7, 8, 0]⟩)
          (.Finish 0 ⟨0⟩) false (1 / 4) 0 ⟨0⟩) 0
          [(700000, Keyboard.init), (700000, Keyboard.init), (700000, Keyboard.init),
            (700000, Keyboard.init), (700000, Keyboard.init), (500000, Keyboard.init)]
        = .Wiping (.Game ⟨3, 3, NPuzzle.mk 3 3 [1, 2, 3, 4, 5, 6, 7, 8, 0]⟩)
            (.Finish 5 ⟨3500000⟩) false (1 / 4) (67108863 / 67108864) ⟨4000000⟩ ∧
      (67108863 / 67108864 : ℚ) < 1 := by
  have hg : (PicPuzzle.mk 3 3 (NPuzzle.mk 3 3 [1, 2, 3, 4, 5, 6, 7, 8, 0])).hasFinished = true := by
    decide
  have h7 : Clock.asSeconds ((700000 : ℕ) : ℤ) = 11744051 / 16777216 := by
    simpa using Scene.asSeconds_700000
  have h5 : Clock.asSeconds ((500000 : ℕ) : ℤ) = 1 / 2 := by
    simpa using Scene.asSeconds_500000
  have i7 : Fp.toDouble ((11744051 : ℚ) / 16777216 * (1 / 4)) = 11744051 / 67108864 :=
    Scene.toDouble_eq _ _ 11744051 (-26) (by norm_num) (by norm_num) (by norm_num) (by norm_num)
  have i5 : Fp.toDouble ((1 : ℚ) / 2 * (1 / 4)) = 1 / 8 :=
    Scene.toDouble_eq _ _ 1 (-3) (by norm_num) (by norm_num) (by norm_num) (by norm_num)
  refine ⟨by decide, ?_, ?_, by norm_num⟩
  · have hm : ((PicPuzzle.mk 3 3 (NPuzzle.mk 3 3 [1, 2, 3, 4, 5, 6, 7, 0, 8])).move
        DIRECTION.WEST) = (⟨3, 3, NPuzzle.mk 3 3 [1, 2, 3, 4, 5, 6, 7, 8, 0]⟩, true) := by decide
    have hn : (PicPuzzle.mk 3 3 (NPuzzle.mk 3 3 [1, 2, 3, 4, 5, 6, 7, 0, 8])).hasFinished
        = false := by decide
    unfold Scene.process
    simp [hn, hm, Keyboard.getPressedDir]
  · rw [Scene.run_Wiping_cons _ hg 0 1 ⟨0⟩ ⟨700000⟩ false 0 (11744051 / 67108864) 0 _ _
        (by decide)
        (by
          rw [h7, i7]
          exact Scene.toDouble_eq _ _ 11744051 (-26) (by norm_num) (by norm_num) (by norm_num)
            (by norm_num))
        (by norm_num)]
    rw [Scene.run_Wiping_cons _ hg 1 2 ⟨700000⟩ ⟨1400000⟩ false _ (11744051 / 33554432) _ _ _
        (by decide)
        (by
          rw [h7, i7]
          exact Scene.toDouble_eq _ _ 11744051 (-25) (by norm_num) (by norm_num) (by norm_num)
            (by norm_num))
        (by norm_num)]
    rw [Scene.run_Wiping_cons _ hg 2 3 ⟨1400000⟩ ⟨2100000⟩ false _ (35232153 / 67108864) _ _ _
        (by decide)
        (by
          rw [h7, i7]
          exact Scene.toDouble_eq _ _ 35232153 (-26) (by norm_num) (by norm_num) (by norm_num)
            (by norm_num))
        (by norm_num)]
    rw [Scene.run_Wiping_cons _ hg 3 4 ⟨2100000⟩ ⟨2800000⟩ false _ (11744051 / 16777216) _ _ _
        (by decide)
        (by
          rw [h7, i7]
          exact Scene.toDouble_eq _ _ 11744051 (-24) (by norm_num) (by norm_num) (by norm_num)
            (by norm_num))
        (by norm_num)]
    rw [Scene.run_Wiping_cons _ hg 4 5 ⟨2800000⟩ ⟨3500000⟩ false _ (58720255 / 67108864) _ _ _
        (by decide)
        (by
          rw [h7, i7]
          exact Scene.toDouble_eq _ _ 58720255 (-26) (by norm_num) (by norm_num) (by norm_num)
            (by norm_num))
        (by norm_num)]
    rw [Scene.run_Wiping_cons _ hg 5 5 ⟨3500000⟩ ⟨3500000⟩ false _ (67108863 / 67108864) _ _ _
        (by decide)
        (by
          rw [h5, i5]
          exact Scene.toDouble_eq _ _ 67108863 (-26) (by norm_num) (by norm_num) (by norm_num)
            (by norm_num))
        (by norm_num)]
    rfl

namespace Scene

theorem process_Finish_ms (i a s g : Int) (kb : Keyboard) (ha : 0 ≤ a) (hg : 0 ≤ g) :
    (process (.Finish i ⟨s⟩) (s + 1000 * a + 1000 * g) kb).1
      = if a + g > 500 then .Finish ((i + 1).tmod 6) ⟨s + 1000 * a + 1000 * g⟩
        else .Finish i ⟨s⟩ := by
  have hms : Clock.asMilliseconds (s + 1000 * a + 1000 * g - s) = a + g := by
    unfold Clock.asMilliseconds
    rw [show s + 1000 * a + 1000 * g - s = 1000 * (a + g) by ring]
    rw [Int.tdiv_eq_ediv (by omega) (by omega)]
    omega
  unfold process
  simp only [Clock.getElapsedTime, Clock.restart, INTERVAL, hms]
  split_ifs <;> rfl

/-- The animation timer under frames at most 99 ms apart: `T` ms into a run that lasts 1700 ms
in all, with `a` ms on the clock since its last restart, the frame index `i` satisfies
`501 i ≤ T - a ≤ 599 i`, and the run ends with index 3. -/
theorem finishAfter_bounded (gaps : List Int) (hg : ∀ g ∈ gaps, 1 ≤ g ∧ g ≤ 99) (kb : Keyboard)
    (i a s T : Int) (ha : 0 ≤ a ∧ a ≤ 500) (h1 : 501 * i ≤ T - a) (h2 : T - a ≤ 599 * i)
    (hi : 0 ≤ i) (hsum : T + gaps.sum = 1700) :
    (finishAfter (.Finish i ⟨s⟩) (s + 1000 * a) kb gaps).spriteIndex? = some 3 := by
  induction gaps generalizing i a s T with
  | nil =>
    simp only [List.sum_nil, add_zero] at hsum
    have : i = 3 := by omega
    subst this
    rfl
  | cons g gs ih =>
    have hg1 := hg g (List.mem_cons_self _ _)
    have hgs : ∀ x ∈ gs, 1 ≤ x ∧ x ≤ 99 := fun x hx => hg x (List.mem_cons_of_mem _ hx)
    have hnn : 0 ≤ gs.sum := List.sum_nonneg (fun x hx => by have := hgs x hx; omega)
    rw [List.sum_cons] at hsum
    show (finishAfter (process (.Finish i ⟨s⟩) (s + 1000 * a + 1000 * g) kb).1
      (s + 1000 * a + 1000 * g) kb gs).spriteIndex? = some 3
    rw [process_Finish_ms i a s g kb ha.1 (by omega)]
    by_cases hc : a + g > 500
    · rw [if_pos hc]
      have hi3 : i + 1 ≤ 3 := by omega
      have hmod : (i + 1).tmod 6 = i + 1 := by
        rw [Int.tmod_eq_emod (by omega) (by omega)]
        omega
      rw [hmod]
      have := ih hgs (i + 1) 0 (s + 1000 * a + 1000 * g) (T + g) (by omega) (by omega) (by omega)
        (by omega) (by omega)
      simpa using this
    · rw [if_neg hc]
      have := ih hgs i (a + g) s (T + g) (by omega) (by omega) (by omega) hi (by omega)
      rw [show s + 1000 * (a + g) = s + 1000 * a + 1000 * g by ring] at this
      exact this

end Scene

/-- C9 (the claim as stated fails): one `Finish::process` call 1700 ms after the scene was
constructed is a schedule of positive gaps that sum to 1700 ms, and it leaves the frame index at
1, not at 3; so do seventeen calls 100 ms apart, which leave it at 2. -/
theorem finish_index_single_late_call :
    ([1700] : List Int).sum = 1700 ∧ (∀ g ∈ ([1700] : List Int), 0 < g) ∧
      (Scene.finishAfter (.Finish 0 ⟨0⟩) 0 Keyboard.init [1700]).spriteIndex? = some 1 ∧
      (Scene.finishAfter (.Finish 0 ⟨0⟩) 0 Keyboard.init [1700]).spriteIndex? ≠ some 3 ∧
      (List.replicate 17 (100 : Int)).sum = 1700 ∧
      (Scene.finishAfter (.Finish 0 ⟨0⟩) 0 Keyboard.init
        (List.replicate 17 100)).spriteIndex? = some 2 := by
  refine ⟨by decide, by decide, by decide, by decide, by decide, by decide⟩

/-- C9 (as amended): for a `Finish` scene constructed at any instant with frame index 0, and
every schedule of `Finish::process` calls whose gaps are whole milliseconds between 1 and 99 and
sum to 1700 ms, the frame index after the last call is 3. -/
theorem finish_index_after_1700ms (gaps : List Int) (t0 : Int) (kb : Keyboard)
    (hg : ∀ g ∈ gaps, 1 ≤ g ∧ g ≤ 99) (hsum : gaps.sum = 1700) :
    (Scene.finishAfter (.Finish 0 ⟨t0⟩) t0 kb gaps).spriteIndex? = some 3 := by
  have := Scene.finishAfter_bounded gaps hg kb 0 0 t0 0 (by omega) (by omega) (by omega)
    (by omega) (by omega)
  simpa using this

/-- Witness for C9: thirty-four calls 50 ms apart. -/
theorem finish_index_after_1700ms_witness :
    (Scene.finishAfter (.Finish 0 ⟨0⟩) 0 Keyboard.init (List.replicate 34 50)).spriteIndex?
      = some 3 :=
  finish_index_after_1700ms (List.replicate 34 50) 0 Keyboard.init (by decide) (by decide)

/-- Witness for C8: the 3×3 grid `1 2 3 / 4 5 6 / 7 0 8` with the key event WEST at instant 0. -/
theorem solving_move_wipes_then_finishes_witness :
    Scene.process (.Game ⟨3, 3, NPuzzle.mk 3 3 [1, 2, 3, 4, 5, 6, 7, 0, 8]⟩) 0
        ⟨true, some DIRECTION.WEST⟩
      = (.Game { (⟨3, 3, NPuzzle.mk 3 3 [1, 2, 3, 4, 5, 6, 7, 0, 8]⟩ : PicPuzzle) with
            puzzle_ := ((NPuzzle.mk 3 3 [1, 2, 3, 4, 5, 6, 7, 0, 8]).move DIRECTION.WEST).1 },
          Handle.fresh (.Wiping
            (.Game { (⟨3, 3, NPuzzle.mk 3 3 [1, 2, 3, 4, 5, 6, 7, 0, 8]⟩ : PicPuzzle) with
              puzzle_ := ((NPuzzle.mk 3 3 [1, 2, 3, 4, 5, 6, 7, 0, 8]).move DIRECTION.WEST).1 })
            (.Finish 0 ⟨0⟩) false (1 / 4) 0 ⟨0⟩)) :=
  (solving_move_wipes_then_finishes ⟨3, 3, NPuzzle.mk 3 3 [1, 2, 3, 4, 5, 6, 7, 0, 8]⟩
    DIRECTION.WEST ⟨true, some DIRECTION.WEST⟩ 0 ⟨by decide, by decide, by decide⟩ (by decide)
    (by decide) rfl).1

/-! ## The constructor -/

namespace NPuzzle

theorem foldl_set_replicate (n m : Nat) (hm : m ≤ n) :
    (List.range m).foldl (fun (b : List Int) (i : Nat) => b.set i ((i : Int) + 1))
        (List.replicate n 0)
      = (List.range m).map (fun i : Nat => (i : Int) + 1) ++ List.replicate (n - m) 0 := by
  induction m with
  | zero => simp
  | succ k ih =>
    rw [List.range_succ, List.foldl_append, ih (by omega)]
    simp only [List.foldl_cons, List.foldl_nil, List.map_append, List.map_cons, List.map_nil]
    have hlen : ((List.range k).map (fun i : Nat => (i : Int) + 1)).length = k := by simp
    rw [List.set_append_right _ _ (by omega), hlen, Nat.sub_self]
    obtain ⟨d, hd⟩ : ∃ d, n - k = d + 1 := ⟨n - k - 1, by omega⟩
    rw [hd, List.replicate_succ, List.set_cons_zero, show n - (k + 1) = d by omega]
    simp

theorem initialBlocks_eq (width height : Int) (hn : 1 ≤ width * height) :
    initialBlocks width height = solvedBlocks (width * height).toNat := by
  unfold initialBlocks solvedBlocks
  have e : (width * height - 1).toNat = (width * height).toNat - 1 := by omega
  rw [e, foldl_set_replicate _ _ (by omega)]
  have : (width * height).toNat - ((width * height).toNat - 1) = 1 := by omega
  rw [this]
  rfl

theorem solvedBlocks_perm (n : Nat) (hn : 1 ≤ n) :
    (solvedBlocks n).Perm ((List.range n).map (fun i : Nat => (i : Int))) := by
  obtain ⟨m, rfl⟩ : ∃ m, n = m + 1 := ⟨n - 1, by omega⟩
  unfold solvedBlocks
  rw [List.range_succ_eq_map, List.map_cons, List.map_map, Nat.add_sub_cancel]
  refine List.perm_append_comm.trans ?_
  simp only [List.singleton_append, Nat.cast_zero]
  apply List.Perm.cons
  apply List.Perm.of_eq
  apply List.map_congr_left
  intro a _
  simp

theorem solvedBlocks_length (n : Nat) (hn : 1 ≤ n) : (solvedBlocks n).length = n := by
  unfold solvedBlocks
  simp
  omega

theorem iter_swap_blank_last (r : List Int) (n : Nat) (hn : 1 ≤ n)
    (hr : r.Perm ((List.range n).map (fun i : Nat => (i : Int)))) :
    (HooLib.iter_swap r (r.indexOf 0) (r.length - 1)).1.Perm r ∧
      (HooLib.iter_swap r (r.indexOf 0) (r.length - 1)).1[n - 1]? = some 0 := by
  have hrlen : r.length = n := by
    have := hr.length_eq
    simpa using this
  have hmem : (0 : Int) ∈ r := by
    rw [hr.mem_iff, List.mem_map]
    exact ⟨0, List.mem_range.mpr (by omega), rfl⟩
  have hi0 : r.indexOf 0 < r.length := List.indexOf_lt_length.mpr hmem
  have hget0 : r[r.indexOf 0]? = some 0 := by
    rw [List.getElem?_eq_getElem hi0, List.getElem_indexOf hi0]
  unfold HooLib.iter_swap
  by_cases he : r.indexOf 0 = r.length - 1
  · rw [if_pos he]
    refine ⟨List.Perm.refl _, ?_⟩
    rw [← hrlen, ← he]
    exact hget0
  · rw [if_neg he]
    refine ⟨HooLib.swap_perm _ _ _ hi0 (by omega), ?_⟩
    show (HooLib.swap _ _ _)[_]? = _
    rw [← hrlen, HooLib.swap_getElem? _ _ _ _ hi0 (by omega), Equiv.swap_apply_right]
    exact hget0

theorem fixup_blank_last (s : List Int) (n : Nat) (c : Bool) (hn : 3 ≤ n) (hlen : s.length = n)
    (hs : s[n - 1]? = some 0) :
    (if c then HooLib.swap s 0 1 else s).Perm s ∧
      (if c then HooLib.swap s 0 1 else s)[n - 1]? = some 0 := by
  split_ifs
  · refine ⟨HooLib.swap_perm _ _ _ (by omega) (by omega), ?_⟩
    rw [HooLib.swap_getElem? _ _ _ _ (by omega) (by omega),
      Equiv.swap_apply_of_ne_of_ne (by omega) (by omega)]
    exact hs
  · exact ⟨List.Perm.refl _, hs⟩

theorem acceptance_test_holds (b : List Int) (n m : Nat) (hn : 2 ≤ n) (hm : 1 ≤ m)
    (hb : b.Perm ((List.range n).map (fun i : Nat => (i : Int))))
    (h0 : b[n - 1]? = some 0) :
    (List.range m).any (fun i => b[i]? != some (i : Int)) = true := by
  rw [List.any_eq_true]
  refine ⟨0, List.mem_range.mpr (by omega), ?_⟩
  have hnd : b.Nodup := by
    rw [hb.nodup_iff]
    have hinj : Function.Injective (fun i : Nat => (i : Int)) := fun a b h => Int.ofNat.inj h
    exact (List.nodup_range _).map hinj
  have hlen : b.length = n := by
    have := hb.length_eq
    simpa using this
  simp only [Nat.cast_zero, bne_iff_ne, ne_eq]
  intro h
  have h1 : (0 : Nat) < b.length := by omega
  have h2 : n - 1 < b.length := by omega
  rw [List.getElem?_eq_getElem h1] at h
  rw [List.getElem?_eq_getElem h2] at h0
  have := (List.Nodup.getElem_inj_iff hnd).mp ((Option.some.inj h).trans (Option.some.inj h0).symm)
  omega

/-- What one pass of the constructor loop does to a block sequence `l` holding `0, …, n-1`
(`n ≥ 3`) when the shuffle rearranges it: the result is again a rearrangement of `l`, the blank
ends in the last cell, and the acceptance test holds. -/
theorem shufflePass_perm (width height : Int) (sh : HooLib.Shuffle) (l : List Int)
    (hn : 3 ≤ width * height)
    (hl : l.Perm ((List.range (width * height).toNat).map (fun i : Nat => (i : Int))))
    (hsh : (sh l).1.Perm l) :
    (shufflePass width height sh l).1.Perm l ∧
      (shufflePass width height sh l).1[(width * height).toNat - 1]? = some 0 ∧
      (shufflePass width height sh l).2 = true := by
  have hrp := hsh.trans hl
  have hn3 : 3 ≤ (width * height).toNat := by omega
  have hs := iter_swap_blank_last (sh l).1 _ (by omega) hrp
  have hslen : (HooLib.iter_swap (sh l).1 ((sh l).1.indexOf 0) ((sh l).1.length - 1)).1.length
      = (width * height).toNat := by
    have := (hs.1.trans hrp).length_eq
    simpa using this
  have hb := fixup_blank_last _ _
    (HooLib.odd ((sh l).2 + (HooLib.iter_swap (sh l).1 ((sh l).1.indexOf 0)
      ((sh l).1.length - 1)).2)) hn3 hslen hs.2
  have hbp := (hb.1.trans hs.1).trans hsh
  refine ⟨hbp, hb.2, ?_⟩
  exact acceptance_test_holds _ _ _ (by omega) (by omega) (hbp.trans hl) hb.2

theorem new_eq_first_pass (width height : Int) (rng : Nat → HooLib.Shuffle) (fuel : Nat)
    (hw : 1 ≤ width) (hh : 1 ≤ height) (hn : 2 ≤ width * height)
    (hacc : (shufflePass width height (rng 0) (initialBlocks width height)).2 = true) :
    new width height rng (fuel + 1)
      = some (.ok { width_ := width, height_ := height,
                    blocks_ := (shufflePass width height (rng 0)
                      (initialBlocks width height)).1 }) := by
  unfold new
  simp only [ge_iff_le, hw, hh, hn, decide_True, Bool.and_self, if_true]
  unfold shuffleLoop
  rw [if_pos hacc]
  rfl

end NPuzzle

/-- C10: for a board with `W * H ≥ 3` and a first shuffle that rearranges the cells in any way
and reports any swap count, the acceptance test of the constructor's retry loop holds on the
first pass, so the constructor returns after exactly one shuffle, whatever fuel (at least one
pass) it is given. -/
theorem constructor_accepts_first_pass (width height : Int) (rng : Nat → HooLib.Shuffle)
    (fuel : Nat) (hw : 1 ≤ width) (hh : 1 ≤ height) (hn : 3 ≤ width * height)
    (hsh : (rng 0 (NPuzzle.initialBlocks width height)).1.Perm
      (NPuzzle.initialBlocks width height))
    (hfuel : 1 ≤ fuel) :
    (NPuzzle.shufflePass width height (rng 0) (NPuzzle.initialBlocks width height)).2 = true ∧
      NPuzzle.new width height rng fuel
        = some (.ok { width_ := width, height_ := height,
                      blocks_ := (NPuzzle.shufflePass width height (rng 0)
                        (NPuzzle.initialBlocks width height)).1 }) ∧
      NPuzzle.new width height rng fuel = NPuzzle.new width height rng 1 := by
  have hinit : (NPuzzle.initialBlocks width height).Perm
      ((List.range (width * height).toNat).map (fun i : Nat => (i : Int))) := by
    rw [NPuzzle.initialBlocks_eq _ _ (by omega)]
    exact NPuzzle.solvedBlocks_perm _ (by omega)
  have hacc := (NPuzzle.shufflePass_perm width height (rng 0) _ hn hinit hsh).2.2
  obtain ⟨f, rfl⟩ : ∃ f, fuel = f + 1 := ⟨fuel - 1, by omega⟩
  refine ⟨hacc, NPuzzle.new_eq_first_pass width height rng f hw hh (by omega) hacc, ?_⟩
  rw [NPuzzle.new_eq_first_pass width height rng f hw hh (by omega) hacc,
    NPuzzle.new_eq_first_pass width height rng 0 hw hh (by omega) hacc]

/-- Witness for C10: the 3×3 board with a shuffle that exchanges cells 8 and 5, then 1 and 0,
and reports 7 swaps. -/
theorem constructor_accepts_first_pass_witness :
    (NPuzzle.shufflePass 3 3 (fun l => (HooLib.applySwaps [(8, 5), (1, 0)] l, 7))
        (NPuzzle.initialBlocks 3 3)).2 = true ∧
      NPuzzle.new 3 3 (fun _ l => (HooLib.applySwaps [(8, 5), (1, 0)] l, 7)) 2
        = some (.ok { width_ := 3, height_ := 3,
                      blocks_ := (NPuzzle.shufflePass 3 3
                        (fun l => (HooLib.applySwaps [(8, 5), (1, 0)] l, 7))
                        (NPuzzle.initialBlocks 3 3)).1 }) ∧
      NPuzzle.new 3 3 (fun _ l => (HooLib.applySwaps [(8, 5), (1, 0)] l, 7)) 2
        = NPuzzle.new 3 3 (fun _ l => (HooLib.applySwaps [(8, 5), (1, 0)] l, 7)) 1 :=
  constructor_accepts_first_pass 3 3 (fun _ l => (HooLib.applySwaps [(8, 5), (1, 0)] l, 7)) 2
    (by decide) (by decide) (by decide) (by decide) (by decide)

/-- C1 (the code breaks the claim): on the 3×3 board of the game, a shuffle whose exchanges are
cells 8 and 5, then cells 1 and 0 (two transpositions, count 2) makes the constructor return the
solved grid `1 2 3 4 5 6 7 8 0`: bringing the blank back is a third swap, the parity fix-up
undoes the other one, and the acceptance test compares `blocks_[0] = 1` with `0`.  A shuffle
that exchanges nothing is accepted with the solved grid as well, and so is every shuffle of the
2×1 board. -/
theorem constructor_returns_solved_grid :
    NPuzzle.new 3 3 (fun _ => HooLib.shuffle [(8, 5), (1, 0)]) 1
        = some (.ok (NPuzzle.mk 3 3 [1, 2, 3, 4, 5, 6, 7, 8, 0])) ∧
      NPuzzle.new 3 3 (fun _ => HooLib.shuffle []) 1
        = some (.ok (NPuzzle.mk 3 3 [1, 2, 3, 4, 5, 6, 7, 8, 0])) ∧
      (NPuzzle.mk 3 3 [1, 2, 3, 4, 5, 6, 7, 8, 0]).isCorrect = true ∧
      NPuzzle.new 2 1 (fun _ => HooLib.shuffle [(1, 0)]) 1
        = some (.ok (NPuzzle.mk 2 1 [1, 0])) ∧
      (NPuzzle.mk 2 1 [1, 0]).isCorrect = true := by
  refine ⟨rfl, rfl, by decide, rfl, by decide⟩

namespace NPuzzle

theorem lineStates_closed :
    ∀ p ∈ lineStates, ∀ d : DIRECTION, (p.move d).2 = none → (p.move d).1 ∈ lineStates := by
  intro p hp d
  simp only [lineStates, List.mem_cons, List.mem_singleton, List.not_mem_nil, or_false] at hp
  rcases hp with rfl | rfl | rfl | rfl <;> cases d <;> decide

theorem lineStates_not_correct : ∀ p ∈ lineStates, p.isCorrect = false := by
  decide

theorem moves_lineStates (ds : List DIRECTION) :
    ∀ p ∈ lineStates, ∀ q, p.moves ds = some q → q ∈ lineStates := by
  induction ds with
  | nil =>
    intro p hp q h
    simp only [moves, Option.some.injEq] at h
    exact h ▸ hp
  | cons d ds ih =>
    intro p hp q h
    unfold moves at h
    by_cases hm : (p.move d).2 = none
    · rw [if_pos hm] at h
      exact ih _ (lineStates_closed p hp d hm) q h
    · rw [if_neg hm] at h
      exact Option.noConfusion h

end NPuzzle

/-- C2 (the code breaks the claim): on the 4×1 board, a shuffle that exchanges cells 2 and 0,
then cells 1 and 0 (two transpositions, count 2) makes the constructor return the grid
`2 3 1 0`, and no sequence of successful moves turns that grid into the solved one: on a board
one cell high the blank only slides along the row and the tiles keep their order. -/
theorem constructor_returns_unsolvable_line :
    NPuzzle.new 4 1 (fun _ => HooLib.shuffle [(2, 0), (1, 0)]) 1
        = some (.ok (NPuzzle.mk 4 1 [2, 3, 1, 0])) ∧
      ∀ (ds : List DIRECTION) (q : NPuzzle),
        (NPuzzle.mk 4 1 [2, 3, 1, 0]).moves ds = some q → q.isCorrect = false := by
  refine ⟨rfl, ?_⟩
  intro ds q h
  exact NPuzzle.lineStates_not_correct q
    (NPuzzle.moves_lineStates ds _ (by simp [NPuzzle.lineStates]) q h)

/-! ## Parity of the generated grid -/

namespace NPuzzle

theorem arrangedWithParity_solved (n : Nat) (hn : 1 ≤ n) :
    ArrangedWithParity n (solvedBlocks n) 0 :=
  ⟨1, ⟨solvedBlocks_length n hn, fun _ => rfl⟩, by simp⟩

theorem ArrangedWithParity.swap {n : Nat} {l : List Int} {c : Int}
    (h : ArrangedWithParity n l c) (i j : Nat) (hi : i < n) (hj : j < n) (hij : i ≠ j) :
    ArrangedWithParity n (HooLib.swap l i j) (c + 1) := by
  obtain ⟨σ, ⟨hlen, harr⟩, hsign⟩ := h
  refine ⟨σ * Equiv.swap ⟨i, hi⟩ ⟨j, hj⟩, ⟨by rw [HooLib.swap_length, hlen], ?_⟩, ?_⟩
  · intro k
    rw [HooLib.swap_getElem? l i j k (by omega) (by omega)]
    have hs : ((Equiv.swap (⟨i, hi⟩ : Fin n) ⟨j, hj⟩ k : Fin n) : Nat) = Equiv.swap i j (k : Nat) := by
      simp only [Equiv.swap_apply_def, Fin.ext_iff]
      split_ifs <;> rfl
    rw [← hs, harr]
    rfl
  · rw [Equiv.Perm.sign_mul, hsign, Equiv.Perm.sign_swap (by simpa [Fin.ext_iff] using hij)]
    by_cases hc : c % 2 = 0
    · have : ¬ (c + 1) % 2 = 0 := by omega
      simp [hc, this]
    · have : (c + 1) % 2 = 0 := by omega
      simp [hc, this]

theorem ArrangedWithParity.applySwaps {n : Nat} (ts : List (Nat × Nat))
    (hts : ∀ t ∈ ts, t.1 ≠ t.2 ∧ t.1 < n ∧ t.2 < n) {l : List Int} {c : Int}
    (h : ArrangedWithParity n l c) :
    ArrangedWithParity n (HooLib.applySwaps ts l) (c + (ts.length : Int)) := by
  induction ts generalizing l c with
  | nil => simpa [HooLib.applySwaps] using h
  | cons t ts ih =>
    have ht := hts t (List.mem_cons_self _ _)
    have := ih (fun x hx => hts x (List.mem_cons_of_mem _ hx)) (h.swap t.1 t.2 ht.2.1 ht.2.2 ht.1)
    simp only [HooLib.applySwaps, List.length_cons, Nat.cast_add, Nat.cast_one]
    rw [show c + ((ts.length : Int) + 1) = c + 1 + (ts.length : Int) by ring]
    exact this

theorem ArrangedWithParity.iter_swap {n : Nat} {r : List Int} {c : Int}
    (h : ArrangedWithParity n r c) (i j : Nat) (hi : i < n) (hj : j < n) :
    ArrangedWithParity n (HooLib.iter_swap r i j).1 (c + (HooLib.iter_swap r i j).2) := by
  unfold HooLib.iter_swap
  by_cases he : i = j
  · rw [if_pos he]
    simpa using h
  · rw [if_neg he]
    exact h.swap i j hi hj he

theorem ArrangedWithParity.fixup {n : Nat} {s : List Int} {c : Int}
    (h : ArrangedWithParity n s c) (hn : 2 ≤ n) :
    ArrangedWithParity n (if HooLib.odd c then HooLib.swap s 0 1 else s) 0 := by
  by_cases hc : c % 2 = 0
  · have ho : HooLib.odd c = false := by simp [HooLib.odd, hc]
    rw [ho]
    obtain ⟨σ, harr, hsign⟩ := h
    exact ⟨σ, harr, by simpa [hc] using hsign⟩
  · have ho : HooLib.odd c = true := by simp [HooLib.odd, hc]
    rw [ho]
    have := h.swap 0 1 (by omega) (by omega) (by omega)
    obtain ⟨σ, harr, hsign⟩ := this
    have h1 : (c + 1) % 2 = 0 := by omega
    exact ⟨σ, harr, by simpa [h1] using hsign⟩

end NPuzzle

/-- C5: for a board with `W * H ≥ 3` and shuffles that each exchange pairs of two distinct cells
of the vector and report how many pairs they exchanged, the constructor returns (with any fuel
of at least one pass) a puzzle of the given sides whose block sequence is a rearrangement of
`0, …, W*H-1`, has the blank 0 in the last cell, and is the solved sequence
`1, 2, …, W*H-1, 0` rearranged by an even permutation of the cell positions. -/
theorem constructor_even_permutation (width height : Int) (ts : Nat → List (Nat × Nat))
    (fuel : Nat) (hw : 1 ≤ width) (hh : 1 ≤ height) (hn : 3 ≤ width * height)
    (hts : ∀ k, ∀ t ∈ ts k,
      t.1 ≠ t.2 ∧ t.1 < (width * height).toNat ∧ t.2 < (width * height).toNat)
    (hfuel : 1 ≤ fuel) :
    ∃ p : NPuzzle,
      NPuzzle.new width height (fun k => HooLib.shuffle (ts k)) fuel = some (.ok p) ∧
        p.width_ = width ∧ p.height_ = height ∧ p.Valid ∧
        p.blocks_[(width * height).toNat - 1]? = some 0 ∧
        ∃ σ : Equiv.Perm (Fin (width * height).toNat),
          Equiv.Perm.sign σ = 1 ∧ p.blocks_.length = (width * height).toNat ∧
            ∀ k : Fin (width * height).toNat,
              p.blocks_[(k : Nat)]?
                = (NPuzzle.solvedBlocks (width * height).toNat)[(σ k : Nat)]? := by
  have hn3 : 3 ≤ (width * height).toNat := by omega
  have hinit := NPuzzle.initialBlocks_eq width height (by omega)
  have hsolved := NPuzzle.arrangedWithParity_solved (width * height).toNat (by omega)
  have hperm0 := NPuzzle.solvedBlocks_perm (width * height).toNat (by omega)
  -- the shuffle
  have h1 := NPuzzle.ArrangedWithParity.applySwaps (ts 0) (hts 0) hsolved
  rw [zero_add] at h1
  have hshp : (HooLib.shuffle (ts 0) (NPuzzle.solvedBlocks (width * height).toNat)).1.Perm
      (NPuzzle.solvedBlocks (width * height).toNat) := by
    show (HooLib.applySwaps (ts 0) _).Perm _
    have hgen : ∀ (us : List (Nat × Nat)) (l : List Int),
        l.length = (width * height).toNat →
        (∀ t ∈ us, t.1 ≠ t.2 ∧ t.1 < (width * height).toNat ∧ t.2 < (width * height).toNat) →
        (HooLib.applySwaps us l).Perm l := by
      intro us
      induction us with
      | nil => intro l _ _; exact List.Perm.refl _
      | cons t us ih =>
        intro l hl hus
        have ht := hus t (List.mem_cons_self _ _)
        have hp := HooLib.swap_perm l t.1 t.2 (by omega) (by omega)
        exact (ih (HooLib.swap l t.1 t.2) (by rw [HooLib.swap_length, hl])
          (fun x hx => hus x (List.mem_cons_of_mem _ hx))).trans hp
    exact hgen (ts 0) _ (NPuzzle.solvedBlocks_length _ (by omega)) (hts 0)
  have hpass := NPuzzle.shufflePass_perm width height (HooLib.shuffle (ts 0))
    (NPuzzle.solvedBlocks (width * height).toNat) hn hperm0 hshp
  obtain ⟨f, rfl⟩ : ∃ f, fuel = f + 1 := ⟨fuel - 1, by omega⟩
  have hnew := NPuzzle.new_eq_first_pass width height (fun k => HooLib.shuffle (ts k)) f hw hh
    (by omega) (by rw [hinit]; exact hpass.2.2)
  rw [hinit] at hnew
  refine ⟨_, hnew, rfl, rfl, ⟨hw, hh, hpass.1.trans hperm0⟩, hpass.2.1, ?_⟩
  -- parity
  have hrlen : (HooLib.applySwaps (ts 0) (NPuzzle.solvedBlocks (width * height).toNat)).length
      = (width * height).toNat := h1.choose_spec.1.1
  have hmem : (0 : Int) ∈ HooLib.applySwaps (ts 0) (NPuzzle.solvedBlocks (width * height).toNat) := by
    have hp : (HooLib.applySwaps (ts 0) (NPuzzle.solvedBlocks (width * height).toNat)).Perm
        (NPuzzle.solvedBlocks (width * height).toNat) := hshp
    rw [(hp.trans hperm0).mem_iff, List.mem_map]
    exact ⟨0, List.mem_range.mpr (by omega), rfl⟩
  have hi0 := List.indexOf_lt_length.mpr hmem
  have h2 := h1.iter_swap
    ((HooLib.applySwaps (ts 0) (NPuzzle.solvedBlocks (width * height).toNat)).indexOf 0)
    ((HooLib.applySwaps (ts 0) (NPuzzle.solvedBlocks (width * height).toNat)).length - 1)
    (by omega) (by omega)
  have h3 := h2.fixup (by omega)
  obtain ⟨σ, harr, hsign⟩ := h3
  exact ⟨σ, by simpa using hsign, harr.1, harr.2⟩

/-- Witness for C5: the 3×3 board, first shuffle exchanging cells 8 and 5, then cells 1 and 3. -/
theorem constructor_even_permutation_witness :
    ∃ p : NPuzzle,
      NPuzzle.new 3 3 (fun _ => HooLib.shuffle [(8, 5), (1, 3)]) 1 = some (.ok p) ∧
        p.width_ = 3 ∧ p.height_ = 3 ∧ p.Valid ∧
        p.blocks_[((3 : Int) * 3).toNat - 1]? = some 0 ∧
        ∃ σ : Equiv.Perm (Fin ((3 : Int) * 3).toNat),
          Equiv.Perm.sign σ = 1 ∧ p.blocks_.length = ((3 : Int) * 3).toNat ∧
            ∀ k : Fin ((3 : Int) * 3).toNat,
              p.blocks_[(k : Nat)]?
                = (NPuzzle.solvedBlocks ((3 : Int) * 3).toNat)[(σ k : Nat)]? :=
  constructor_even_permutation 3 3 (fun _ => [(8, 5), (1, 3)]) 1 (by decide) (by decide)
    (by decide)
    (fun _ t ht => by
      simp only [List.mem_cons, List.mem_singleton, List.not_mem_nil, or_false] at ht
      rcases ht with rfl | rfl <;> decide)
    (by decide)

end HanakunNPuzzle
